import Mathlib

/-
Verification development for the dmClock scheduler core
(src/src/dmclock_server.h).

Embedding choices:
  - Tag values are IEEE doubles in the source, with sentinels `max_tag`
    (the largest double) and `min_tag` (the lowest double); the spec
    identifies these with +infinity / -infinity (TagMax, TagMin).  We
    embed a tag value as a rational extended with the two sentinels
    (type `Tg` below); arithmetic saturates at the sentinels, which is
    both the spec's semantics and the behavior of double arithmetic on
    the sentinel values for realistic finite operands.
  - `Time` is a double in the source; embedded as a rational.  The
    sentinels TimeZero = 0 and TimeMax (identified with Tg.top) follow
    the spec, as dmclock_util.h is not part of the sources.
  - Request payloads and client ids are abstracted as naturals.
  - All public operations run under the single data mutex, so the
    semantics is the sequential one; the cleaner thread is not modelled
    (no claim concerns it).
  - The indexed intrusive heap (indirect_intrusive_heap.h) is not among
    the sources; its tops are modelled from the spec (section 4.3): the
    top of a view is a client whose ordering key is not strictly greater
    than any other's, with stable (insertion-order) ties, i.e. the
    earliest-inserted minimal client under the view's ClientCompare
    order.  The indexed vector (IndIntruVector) is embedded faithfully
    from the source, including its three cursor indices.
-/

namespace Dmclock

/-
Batteries marks the arithmetic of ℚ (Rat.add, Rat.mul, Rat.inv, ...)
irreducible, which blocks kernel evaluation of concrete scenarios.  The
embedding therefore computes with the following reducible clones, each
provably equal to the standard operation.
-/

/-- Reducible clone of rational addition. -/
def qAdd (a b : ℚ) : ℚ := mkRat (a.num * b.den + b.num * a.den) (a.den * b.den)

theorem qAdd_eq (a b : ℚ) : qAdd a b = a + b := (Rat.add_def' a b).symm

/-- Reducible clone of rational multiplication. -/
def qMul (a b : ℚ) : ℚ := mkRat (a.num * b.num) (a.den * b.den)

theorem qMul_eq (a b : ℚ) : qMul a b = a * b := by
  rw [Rat.mul_def]
  unfold qMul
  rw [Rat.normalize_eq_mkRat]

/-- Reducible clone of the rational reciprocal. -/
def qInv (a : ℚ) : ℚ := Rat.divInt a.den a.num

theorem qInv_eq (a : ℚ) : qInv a = a⁻¹ := by
  show Rat.divInt a.den a.num = a⁻¹
  rw [← Rat.inv_def]
  rfl

theorem qInv_eq_one_div (a : ℚ) : qInv a = 1 / a := by
  rw [qInv_eq, one_div]

/-- Extended tag value: a rational plus the two sentinels `min_tag`
(`bot`) and `max_tag` (`top`) of the source, which the spec reads as
TagMin and TagMax. -/
inductive Tg where
  | bot : Tg
  | fin : ℚ → Tg
  | top : Tg
deriving DecidableEq

namespace Tg

/-- Strict order on tag values, matching the double comparison used by
the source. -/
def lt : Tg → Tg → Bool
  | bot, bot => false
  | bot, fin _ => true
  | bot, top => true
  | fin _, bot => false
  | fin a, fin b => decide (a < b)
  | fin _, top => true
  | top, _ => false

/-- Non-strict order on tag values. -/
def le : Tg → Tg → Bool
  | bot, _ => true
  | fin _, bot => false
  | fin a, fin b => decide (a ≤ b)
  | fin _, top => true
  | top, bot => false
  | top, fin _ => false
  | top, top => true

/-- Add a finite scalar to a tag value, saturating at the sentinels. -/
def add : Tg → ℚ → Tg
  | bot, _ => bot
  | fin a, q => fin (qAdd a q)
  | top, _ => top

/-- Add two tag values; used where the source adds `prop_delta` (a
double that can carry the `max_tag` sentinel after an idle adjustment
against a weightless client) to a proportion tag. -/
def addT : Tg → Tg → Tg
  | bot, _ => bot
  | top, _ => top
  | fin _, bot => bot
  | fin a, fin b => fin (qAdd a b)
  | fin _, top => top

/-- The maximum of two tag values, written as std::max is: the second
argument when the first is strictly less, else the first. -/
def maxT (a b : Tg) : Tg := if lt a b then b else a

/-- The minimum of two tag values, written as std::min is: the second
argument when it is strictly less, else the first. -/
def minT (a b : Tg) : Tg := if lt b a then b else a

end Tg

/-- ClientInfo of the source: the three rates plus their precomputed
reciprocals, 0 when the rate is 0. -/
structure ClientInfo where
  reservation : ℚ
  weight : ℚ
  limit : ℚ
  reservation_inv : ℚ
  weight_inv : ℚ
  limit_inv : ℚ
deriving DecidableEq

/-- The ClientInfo constructor: reciprocals are 0 exactly when the rate
is 0. -/
def ClientInfo.make (r w l : ℚ) : ClientInfo :=
  { reservation := r
  , weight := w
  , limit := l
  , reservation_inv := if r = 0 then 0 else qInv r
  , weight_inv := if w = 0 then 0 else qInv w
  , limit_inv := if l = 0 then 0 else qInv l }

/-- RequestTag of the source: three tag times plus the ready flag. -/
structure RequestTag where
  reservation : Tg
  proportion : Tg
  limit : Tg
  ready : Bool
deriving DecidableEq

/-- RequestTag::tag_calc of the source: a zero reciprocal yields the
extreme tag; otherwise the increment is scaled by the distributed hint
when that hint is nonzero, and the result is clamped forward to the
arrival time. -/
def tag_calc (time : ℚ) (prev : Tg) (increment : ℚ) (dist_req_val : ℕ)
    (extreme_is_high : Bool) : Tg :=
  if increment = 0 then
    (if extreme_is_high then Tg.top else Tg.bot)
  else
    let inc := if dist_req_val ≠ 0 then qMul increment (dist_req_val : ℚ) else increment
    Tg.maxT (Tg.fin time) (prev.add inc)

/-- The main RequestTag constructor: reservation from rho with the cost
added, proportion and limit from delta, ready initially false. -/
def RequestTag.make (prev : RequestTag) (info : ClientInfo) (rho delta : ℕ)
    (time : ℚ) (cost : ℚ) : RequestTag :=
  { reservation := (tag_calc time prev.reservation info.reservation_inv rho true).add cost
  , proportion := tag_calc time prev.proportion info.weight_inv delta true
  , limit := tag_calc time prev.limit info.limit_inv delta false
  , ready := false }

/-- The tag (0, 0, 0) used to seed a fresh client record; the
three-argument RequestTag constructor sets ready to false. -/
def zeroTag : RequestTag :=
  { reservation := Tg.fin 0, proportion := Tg.fin 0, limit := Tg.fin 0, ready := false }

/-- ClientReq of the source: a tagged request owned by its client
record; the payload is abstracted as a natural. -/
structure ClientReq where
  tag : RequestTag
  client_id : ℕ
  request : ℕ
deriving DecidableEq

/-- ClientRec of the source.  The heap index handles are not modelled;
the vector cursors live in the scheduler state. -/
structure ClientRec where
  client : ℕ
  prev_tag : RequestTag
  requests : List ClientReq
  prop_delta : Tg
  info : ClientInfo
  idle : Bool
  last_tick : ℕ
deriving DecidableEq

/-- A fresh ClientRec: prev_tag (0,0,0), no requests, prop_delta 0,
idle true, last_tick the current tick. -/
def ClientRec.create (cid : ℕ) (info : ClientInfo) (tick : ℕ) : ClientRec :=
  { client := cid
  , prev_tag := zeroTag
  , requests := []
  , prop_delta := Tg.fin 0
  , info := info
  , idle := true
  , last_tick := tick }

/-- Default request used to totalize requests.front(); every read of the
front in the source is guarded by has_request(). -/
def defaultReq : ClientReq := { tag := zeroTag, client_id := 0, request := 0 }

/-- A default client record (no requests) used to totalize vector
indexing; every top read in the source is guarded by an emptiness
check. -/
def defaultClientRec : ClientRec := ClientRec.create 0 (ClientInfo.make 0 0 0) 0

/-- ClientRec::next_request, totalized with a default. -/
def ClientRec.next_request (c : ClientRec) : ClientReq := c.requests.headD defaultReq

/-- ClientRec::has_request. -/
def ClientRec.has_request (c : ClientRec) : Bool := !c.requests.isEmpty

/-- The ready-option parameter of the ClientCompare template. -/
inductive ReadyOption where
  | ignore
  | lowers
  | raises
deriving DecidableEq

/-- The ClientCompare functor of the source, parameterized by tag field,
ready option and prop-delta use: a strict precedes? test; a client with
no pending request never precedes, two empty clients are equivalent. -/
def ClientCompare (tag_field : RequestTag → Tg) (ready_opt : ReadyOption)
    (use_prop_delta : Bool) (n1 n2 : ClientRec) : Bool :=
  if n1.has_request then
    if n2.has_request then
      if ready_opt = ReadyOption.ignore ∨
          n1.next_request.tag.ready = n2.next_request.tag.ready then
        if use_prop_delta then
          Tg.lt (Tg.addT (tag_field n1.next_request.tag) n1.prop_delta)
            (Tg.addT (tag_field n2.next_request.tag) n2.prop_delta)
        else
          Tg.lt (tag_field n1.next_request.tag) (tag_field n2.next_request.tag)
      else if ready_opt = ReadyOption.raises then n1.next_request.tag.ready
      else n2.next_request.tag.ready
    else true
  else false

/-- The reservation-view order: ClientCompare on the reservation tag,
ready ignored, no prop delta (the resv_heap instantiation). -/
def cmpResv : ClientRec → ClientRec → Bool :=
  ClientCompare (fun t => t.reservation) ReadyOption.ignore false

/-- The limit-view order: ClientCompare on the limit tag, ready lowers,
no prop delta (the limit_heap instantiation). -/
def cmpLimit : ClientRec → ClientRec → Bool :=
  ClientCompare (fun t => t.limit) ReadyOption.lowers false

/-- The ready-view order: ClientCompare on the proportion tag, ready
raises, with prop delta (the ready_heap instantiation). -/
def cmpReady : ClientRec → ClientRec → Bool :=
  ClientCompare (fun t => t.proportion) ReadyOption.raises true

/-- The reservation flag of ClientCompareAtOnce (the vector comparator). -/
def ClientCompareAtOnce_resv (n1 n2 : ClientRec) : Bool :=
  if n1.has_request then
    if n2.has_request then
      Tg.lt n1.next_request.tag.reservation n2.next_request.tag.reservation
    else true
  else false

/-- The proportion (ready) flag of ClientCompareAtOnce. -/
def ClientCompareAtOnce_ready (n1 n3 : ClientRec) : Bool :=
  if n1.has_request then
    if n3.has_request then
      if n1.next_request.tag.ready = n3.next_request.tag.ready then
        Tg.lt (Tg.addT n1.next_request.tag.proportion n1.prop_delta)
          (Tg.addT n3.next_request.tag.proportion n3.prop_delta)
      else n1.next_request.tag.ready
    else true
  else false

/-- The limit flag of ClientCompareAtOnce. -/
def ClientCompareAtOnce_limit (n1 n4 : ClientRec) : Bool :=
  if n1.has_request then
    if n4.has_request then
      if n1.next_request.tag.ready = n4.next_request.tag.ready then
        Tg.lt n1.next_request.tag.limit n4.next_request.tag.limit
      else n4.next_request.tag.ready
    else true
  else false

/-- Indexing into the vector of client records, totalized with the
default record (which has no requests). -/
def clientAt (data : List ClientRec) (i : ℕ) : ClientRec := data.getD i defaultClientRec

/-- Replace the element at an index, identity when out of range. -/
def modifyAt {α : Type} : List α → ℕ → (α → α) → List α
  | [], _, _ => []
  | a :: rest, 0, f => f a :: rest
  | a :: rest, Nat.succ i, f => a :: modifyAt rest i f

/-- IndIntruVector::adjust of the source: one sweep from index 1
refreshing the three cursors with ClientCompareAtOnce. -/
def IIVadjust (data : List ClientRec) : ℕ × ℕ × ℕ :=
  (List.range' 1 (data.length - 1)).foldl
    (fun t i =>
      ( if ClientCompareAtOnce_resv (clientAt data i) (clientAt data t.1) then i else t.1
      , if ClientCompareAtOnce_ready (clientAt data i) (clientAt data t.2.1) then i else t.2.1
      , if ClientCompareAtOnce_limit (clientAt data i) (clientAt data t.2.2) then i else t.2.2))
    (0, 0, 0)

/-- IndIntruVector::adjust_resv of the source. -/
def IIVadjust_resv (data : List ClientRec) : ℕ :=
  (List.range' 1 (data.length - 1)).foldl
    (fun best i =>
      if ClientCompareAtOnce_resv (clientAt data i) (clientAt data best) then i else best)
    0

/-- IndIntruVector::adjust_ready_limit of the source: one sweep
refreshing the ready and limit cursors. -/
def IIVadjust_ready_limit (data : List ClientRec) : ℕ × ℕ :=
  (List.range' 1 (data.length - 1)).foldl
    (fun t i =>
      ( if ClientCompareAtOnce_ready (clientAt data i) (clientAt data t.1) then i else t.1
      , if ClientCompareAtOnce_limit (clientAt data i) (clientAt data t.2) then i else t.2))
    (0, 0)

/-- Index of the earliest-inserted minimal client under a view order:
the same first-strictly-less sweep the vector uses.  For the heap views
this definition is modelled from the spec: indirect_intrusive_heap.h is
not among the sources, and section 4.3 requires the top under each view
to be a client whose ordering key is not strictly greater than any
other's, with stable ties. -/
def argminIdx (cmp : ClientRec → ClientRec → Bool) (data : List ClientRec) : ℕ :=
  (List.range' 1 (data.length - 1)).foldl
    (fun best i => if cmp (clientAt data i) (clientAt data best) then i else best)
    0

/-- Construction-time configuration: allow_limit_break and the choice
between the heap and the vector selection structures. -/
structure Config where
  allow_limit_break : Bool
  use_heap : Bool
deriving DecidableEq

/-- Scheduler state: the client records in insertion order (shared
between the client map, modelled as find-by-id, and the selection
structure), the three vector cursors, and the global tick.  The vector
cursors are meaningful only when the configuration selects the vector. -/
structure SchedState where
  clients : List ClientRec
  resv : ℕ
  ready : ℕ
  limit : ℕ
  tick : ℕ
deriving DecidableEq

/-- The state of a freshly constructed queue. -/
def SchedState.init : SchedState :=
  { clients := [], resv := 0, ready := 0, limit := 0, tick := 0 }

/-- Refresh all three vector cursors (cl_vec.adjust()). -/
def setCursors (st : SchedState) : SchedState :=
  let t3 := IIVadjust st.clients
  { st with resv := t3.1, ready := t3.2.1, limit := t3.2.2 }

/-- Index consulted for the reservation top: the heap top (spec-modelled
as the stable minimum) or the stored vector cursor. -/
def topResvIdx (cfg : Config) (st : SchedState) : ℕ :=
  if cfg.use_heap then argminIdx cmpResv st.clients else st.resv

/-- Index consulted for the ready top. -/
def topReadyIdx (cfg : Config) (st : SchedState) : ℕ :=
  if cfg.use_heap then argminIdx cmpReady st.clients else st.ready

/-- Index consulted for the limit top. -/
def topLimitIdx (cfg : Config) (st : SchedState) : ℕ :=
  if cfg.use_heap then argminIdx cmpLimit st.clients else st.limit

/-- Set the ready flag of the front request of a client record. -/
def markFrontReady (c : ClientRec) : ClientRec :=
  match c.requests with
  | [] => c
  | r :: rs => { c with requests := { r with tag := { r.tag with ready := true } } :: rs }

/-- Set the ready flag of the front request of the client at an index
(the promotion step of do_next_request). -/
def setFrontReady (data : List ClientRec) (i : ℕ) : List ClientRec :=
  modifyAt data i markFrontReady

/-- Number of clients whose front request exists and is not ready; each
iteration of the promotion loop decreases it, so it bounds the loop. -/
def countNonReady (data : List ClientRec) : ℕ :=
  (data.filter (fun c => c.has_request && !c.next_request.tag.ready)).length

/-- The guard of the promotion loop of do_next_request: the limit top
has a pending non-ready front request whose limit tag is at most now. -/
def promoteGuard (cfg : Config) (now : ℚ) (st : SchedState) : Bool :=
  (clientAt st.clients (topLimitIdx cfg st)).has_request &&
  !(clientAt st.clients (topLimitIdx cfg st)).next_request.tag.ready &&
  Tg.le (clientAt st.clients (topLimitIdx cfg st)).next_request.tag.limit (Tg.fin now)

/-- One iteration of the promotion loop: mark the front of the limit top
ready and re-index (ready_heap.promote and limit_heap.demote for the
heap, adjust_ready_limit for the vector). -/
def promoteStep (cfg : Config) (st : SchedState) : SchedState :=
  let data := setFrontReady st.clients (topLimitIdx cfg st)
  if cfg.use_heap then { st with clients := data }
  else
    let p := IIVadjust_ready_limit data
    { st with clients := data, ready := p.1, limit := p.2 }

/-- The promotion loop of do_next_request with explicit fuel. -/
def promoteGo (cfg : Config) (now : ℚ) : ℕ → SchedState → SchedState
  | 0, st => st
  | Nat.succ fuel, st =>
    if promoteGuard cfg now st then promoteGo cfg now fuel (promoteStep cfg st) else st

/-- The promotion loop, supplied with sufficient fuel. -/
def promoteLoop (cfg : Config) (now : ℚ) (st : SchedState) : SchedState :=
  promoteGo cfg now (countNonReady st.clients) st

/-- HeapId of the source: which view the next request pops from. -/
inductive HeapId where
  | reservation
  | ready
deriving DecidableEq

/-- NextReqType together with its payload, as returned by
do_next_request. -/
inductive NextReq where
  | none
  | future (when_ready : Tg)
  | returning (heap_id : HeapId)
deriving DecidableEq

/-- min_not_0_time of the source: ignore the candidate when it equals
TimeZero = 0, else take the minimum. -/
def min_not_0_time (current possible : Tg) : Tg :=
  if possible = Tg.fin 0 then current else Tg.minT current possible

/-- PriorityQueueBase::do_next_request.  The reservation reference of
the source is bound before the promotion loop and read again after it
(for the limit-break branch); positions are stable under promotion, so
the alias is modelled by the pre-loop index into the post-loop list. -/
def do_next_request (cfg : Config) (st : SchedState) (now : ℚ) : NextReq × SchedState :=
  if st.clients.isEmpty then (NextReq.none, st)
  else
    let reservIdx := topResvIdx cfg st
    let reserv := clientAt st.clients reservIdx
    if reserv.has_request && Tg.le reserv.next_request.tag.reservation (Tg.fin now) then
      (NextReq.returning HeapId.reservation, st)
    else
      let st1 := promoteLoop cfg now st
      let readys := clientAt st1.clients (topReadyIdx cfg st1)
      if readys.has_request && readys.next_request.tag.ready &&
          Tg.lt readys.next_request.tag.proportion Tg.top then
        (NextReq.returning HeapId.ready, st1)
      else if cfg.allow_limit_break && readys.has_request &&
          Tg.lt readys.next_request.tag.proportion Tg.top then
        (NextReq.returning HeapId.ready, st1)
      else if cfg.allow_limit_break && (clientAt st1.clients reservIdx).has_request &&
          Tg.lt (clientAt st1.clients reservIdx).next_request.tag.reservation Tg.top then
        (NextReq.returning HeapId.reservation, st1)
      else
        let rtop := clientAt st1.clients (topResvIdx cfg st1)
        let next1 :=
          if rtop.has_request then min_not_0_time Tg.top rtop.next_request.tag.reservation
          else Tg.top
        let ltop := clientAt st1.clients (topLimitIdx cfg st1)
        let next2 :=
          if ltop.has_request then min_not_0_time next1 ltop.next_request.tag.limit
          else next1
        if Tg.lt next2 Tg.top then (NextReq.future next2, st1) else (NextReq.none, st1)

/-- Whether the execution of do_next_request reaches the future-wakeup
block with the limit top holding a pending request whose ready flag is
true, i.e. whether the assertion assert(!next.tag.ready) at the end of
do_next_request fires. -/
def futureAssertViolated (cfg : Config) (st : SchedState) (now : ℚ) : Bool :=
  if st.clients.isEmpty then false
  else
    let reservIdx := topResvIdx cfg st
    let reserv := clientAt st.clients reservIdx
    if reserv.has_request && Tg.le reserv.next_request.tag.reservation (Tg.fin now) then
      false
    else
      let st1 := promoteLoop cfg now st
      let readys := clientAt st1.clients (topReadyIdx cfg st1)
      if readys.has_request && readys.next_request.tag.ready &&
          Tg.lt readys.next_request.tag.proportion Tg.top then
        false
      else if cfg.allow_limit_break && readys.has_request &&
          Tg.lt readys.next_request.tag.proportion Tg.top then
        false
      else if cfg.allow_limit_break && (clientAt st1.clients reservIdx).has_request &&
          Tg.lt (clientAt st1.clients reservIdx).next_request.tag.reservation Tg.top then
        false
      else
        let ltop := clientAt st1.clients (topLimitIdx cfg st1)
        ltop.has_request && ltop.next_request.tag.ready

/-- Lookup in the client map: the index of the record with the given
id in the insertion-ordered list (ids are unique in reachable states,
mirroring the std::map keying). -/
def findClientIdx (cid : ℕ) : List ClientRec → Option ℕ
  | [] => Option.none
  | c :: rest =>
    if c.client = cid then Option.some 0
    else
      match findClientIdx cid rest with
      | Option.some i => Option.some (i + 1)
      | Option.none => Option.none

/-- PriorityQueueBase::reduce_reservation_tags on a client record:
subtract reservation_inv from every queued reservation tag and from
prev_tag.reservation. -/
def reduceResTagsRec (c : ClientRec) : ClientRec :=
  { c with
    requests := c.requests.map (fun r =>
      { r with tag := { r.tag with reservation := r.tag.reservation.add (-c.info.reservation_inv) } })
  , prev_tag := { c.prev_tag with
      reservation := c.prev_tag.reservation.add (-c.info.reservation_inv) } }

/-- reduce_reservation_tags by client id, followed by
resv_heap.promote (stateless for the modelled heap) or
cl_vec.adjust_resv.  The source asserts the id is present; absent ids
leave the state unchanged here. -/
def reduce_reservation_tags (cfg : Config) (st : SchedState) (cid : ℕ) : SchedState :=
  match findClientIdx cid st.clients with
  | Option.none => st
  | Option.some i =>
    let data := modifyAt st.clients i reduceResTagsRec
    if cfg.use_heap then { st with clients := data }
    else { st with clients := data, resv := IIVadjust_resv data }

/-- Pop the front request of the client at an index and re-index (the
shared tail of pop_process_request). -/
def popProcessIdx (cfg : Config) (st : SchedState) (idx : ℕ) : SchedState :=
  let data := modifyAt st.clients idx (fun c => { c with requests := c.requests.tail })
  if cfg.use_heap then { st with clients := data } else setCursors { st with clients := data }

/-- PhaseType of the returned request. -/
inductive PhaseType where
  | reservation
  | priority
deriving DecidableEq

/-- The Retn payload of PullPriorityQueue::PullReq. -/
structure Retn where
  client : ℕ
  request : ℕ
  phase : PhaseType
deriving DecidableEq

/-- PullPriorityQueue::PullReq. -/
inductive PullReq where
  | none
  | future (t : Tg)
  | retn (r : Retn)
deriving DecidableEq

/-- PullPriorityQueue::pull_request(now): run do_next_request; on
returning, pop the chosen top and, for the ready heap, apply the
reservation-tag reduction to the dispatched client. -/
def pull_request (cfg : Config) (st : SchedState) (now : ℚ) : PullReq × SchedState :=
  let r := do_next_request cfg st now
  match r.1 with
  | NextReq.none => (PullReq.none, r.2)
  | NextReq.future t => (PullReq.future t, r.2)
  | NextReq.returning hid =>
    let st1 := r.2
    if hid = HeapId.reservation then
      let idx := topResvIdx cfg st1
      let tp := clientAt st1.clients idx
      let req := tp.next_request
      (PullReq.retn { client := tp.client, request := req.request, phase := PhaseType.reservation }
      , popProcessIdx cfg st1 idx)
    else
      let idx := topReadyIdx cfg st1
      let tp := clientAt st1.clients idx
      let req := tp.next_request
      let st2 := popProcessIdx cfg st1 idx
      (PullReq.retn { client := tp.client, request := req.request, phase := PhaseType.priority }
      , reduce_reservation_tags cfg st2 tp.client)

/-- One step of the idle-reactivation scan of do_add_request: consider
a non-idle client with a pending request and keep the lower of its
proportion tag plus prop_delta and the accumulator; none plays the role
of the NaN marker. -/
def lowestStep (acc : Option Tg) (c : ClientRec) : Option Tg :=
  if !c.idle && c.has_request then
    match acc with
    | Option.none => Option.some (Tg.addT c.next_request.tag.proportion c.prop_delta)
    | Option.some low =>
      if Tg.lt (Tg.addT c.next_request.tag.proportion c.prop_delta) low then
        Option.some (Tg.addT c.next_request.tag.proportion c.prop_delta)
      else Option.some low
  else acc

/-- The scan of the idle-reactivation block of do_add_request: the least
proportion tag plus prop_delta over non-idle clients with a pending
request. -/
def lowestPropTag (data : List ClientRec) : Option Tg :=
  data.foldl lowestStep Option.none

/-- The idle-reactivation adjustment applied to a client record while it
is still marked idle: set prop_delta to the scanned minimum minus the
arrival time when the scan found one, then clear the idle flag. -/
def idleAdjustRec (data : List ClientRec) (time : ℚ) (c : ClientRec) : ClientRec :=
  if c.idle then
    let c1 :=
      match lowestPropTag data with
      | Option.some low => { c with prop_delta := Tg.addT low (Tg.fin (-time)) }
      | Option.none => c
    { c1 with idle := false }
  else c

/-- Find the client or lazily create it (the head of do_add_request):
returns the state after the optional creation and push, the index of the
client, and records the incremented tick. -/
def ensureClient (cfg : Config) (info_f : ℕ → ClientInfo) (st : SchedState)
    (client_id : ℕ) (tick : ℕ) : SchedState × ℕ :=
  match findClientIdx client_id st.clients with
  | Option.some i => (st, i)
  | Option.none =>
    let rec0 := ClientRec.create client_id (info_f client_id) tick
    let data := st.clients ++ [rec0]
    let st1 :=
      if cfg.use_heap then { st with clients := data }
      else
        let t3 := IIVadjust data
        { st with clients := data, resv := t3.1, ready := t3.2.1, limit := t3.2.2 }
    (st1, st.clients.length)

/-- PriorityQueueBase::do_add_request: bump the tick, find or create the
client record, apply the idle-reactivation adjustment, compute the tag
from the previous tag, append the request, update prev_tag and
last_tick, and re-index. -/
def do_add_request (cfg : Config) (info_f : ℕ → ClientInfo) (st : SchedState)
    (request : ℕ) (client_id : ℕ) (rho delta : ℕ) (time : ℚ) (cost : ℚ) : SchedState :=
  let tick := st.tick + 1
  let p := ensureClient cfg info_f { st with tick := tick } client_id tick
  let st1 := p.1
  let ci := p.2
  let st2 := { st1 with
    clients := modifyAt st1.clients ci (fun c =>
      let c1 := idleAdjustRec st1.clients time c
      let tag := RequestTag.make c1.prev_tag c1.info rho delta time cost
      { c1 with
        requests := c1.requests ++ [{ tag := tag, client_id := client_id, request := request }]
      , prev_tag := tag
      , last_tick := tick }) }
  if cfg.use_heap then st2 else setCursors st2

/-- PriorityQueueBase::remove_by_client with a sink: drain the queue of
the named client into the sink (front to back) and re-index; unknown ids
leave everything untouched. -/
def remove_by_client (cfg : Config) (st : SchedState) (cid : ℕ) : SchedState × List ℕ :=
  match findClientIdx cid st.clients with
  | Option.none => (st, [])
  | Option.some i =>
    let c := clientAt st.clients i
    let sink := c.requests.map (fun r => r.request)
    let data := modifyAt st.clients i (fun c0 => { c0 with requests := [] })
    let st1 :=
      if cfg.use_heap then { st with clients := data }
      else setCursors { st with clients := data }
    (st1, sink)

/-- ClientRec::remove_by_req_filter_forwards: walk the queue front to
back removing matches into the sink; reports whether any was removed. -/
def remove_by_req_filter_forwards (filter : ℕ → Bool) :
    List ClientReq → List ClientReq × List ℕ × Bool
  | [] => ([], [], false)
  | r :: rs =>
    let t := remove_by_req_filter_forwards filter rs
    if filter r.request then (t.1, r.request :: t.2.1, true)
    else (r :: t.1, t.2.1, t.2.2)

/-- Request at an index, totalized with the default request. -/
def reqAt (q : List ClientReq) (i : ℕ) : ClientReq := q.getD i defaultReq

/-- The body of ClientRec::remove_by_req_filter_backwards once the
iterator is positioned on a valid element: visit positions downward,
erasing matches, stopping at the begin iterator. -/
def rbfBackGo (filter : ℕ → Bool) :
    List ClientReq → List ℕ → Bool → ℕ → List ClientReq × List ℕ × Bool
  | q, out, flag, 0 =>
    let req := reqAt q 0
    if filter req.request then (q.eraseIdx 0, out ++ [req.request], true)
    else (q, out, flag)
  | q, out, flag, Nat.succ i =>
    let req := reqAt q (i + 1)
    if filter req.request then rbfBackGo filter (q.eraseIdx (i + 1)) (out ++ [req.request]) true i
    else rbfBackGo filter q out flag i

/-- ClientRec::remove_by_req_filter_backwards.  The source initializes
its iterator as the decrement of requests.end() with no emptiness check;
on an empty deque that decrement steps before the begin iterator, which
is undefined behavior, modelled as an error. -/
def remove_by_req_filter_backwards (filter : ℕ → Bool) (q : List ClientReq) :
    Except Unit (List ClientReq × List ℕ × Bool) :=
  match q with
  | [] => Except.error ()
  | _ :: _ => Except.ok (rbfBackGo filter q [] false (q.length - 1))

/-- The per-client dispatch of ClientRec::remove_by_req_filter. -/
def clientRemoveByReqFilter (filter : ℕ → Bool) (visit_backwards : Bool)
    (q : List ClientReq) : Except Unit (List ClientReq × List ℕ × Bool) :=
  if visit_backwards then remove_by_req_filter_backwards filter q
  else Except.ok (remove_by_req_filter_forwards filter q)

/-- The walk of PriorityQueueBase::remove_by_req_filter over every
client record in the map, empty-queued or not. -/
def rbrfClients (filter : ℕ → Bool) (visit_backwards : Bool) :
    List ClientRec → Except Unit (List ClientRec × List ℕ × Bool)
  | [] => Except.ok ([], [], false)
  | c :: rest =>
    match clientRemoveByReqFilter filter visit_backwards c.requests with
    | Except.error e => Except.error e
    | Except.ok t =>
      match rbrfClients filter visit_backwards rest with
      | Except.error e => Except.error e
      | Except.ok tr =>
        Except.ok ({ c with requests := t.1 } :: tr.1, t.2.1 ++ tr.2.1, t.2.2 || tr.2.2)

/-- PriorityQueueBase::remove_by_req_filter with a sink: walk every
client, removing matching requests, re-indexing after modifications;
undefined behavior in the backwards walk surfaces as an error. -/
def remove_by_req_filter (cfg : Config) (st : SchedState) (filter : ℕ → Bool)
    (visit_backwards : Bool) : Except Unit (SchedState × List ℕ × Bool) :=
  match rbrfClients filter visit_backwards st.clients with
  | Except.error e => Except.error e
  | Except.ok t =>
    let st1 := { st with clients := t.1 }
    let st2 :=
      if t.2.2 then (if cfg.use_heap then st1 else setCursors st1) else st1
    Except.ok (st2, t.2.1, t.2.2)

/-- An external operation against the pull facade. -/
inductive Op where
  | add (request : ℕ) (client : ℕ) (rho delta : ℕ) (time : ℚ) (cost : ℚ)
  | pull (now : ℚ)
deriving DecidableEq

/-- Run one operation; pulls produce an output. -/
def runOp (cfg : Config) (info_f : ℕ → ClientInfo) (st : SchedState) :
    Op → SchedState × Option PullReq
  | Op.add request client rho delta time cost =>
    (do_add_request cfg info_f st request client rho delta time cost, Option.none)
  | Op.pull now =>
    let r := pull_request cfg st now
    (r.2, Option.some r.1)

/-- Run a sequence of operations from a state, collecting pull outputs. -/
def runFrom (cfg : Config) (info_f : ℕ → ClientInfo) :
    SchedState → List Op → List PullReq
  | _, [] => []
  | st, op :: ops =>
    let r := runOp cfg info_f st op
    match r.2 with
    | Option.none => runFrom cfg info_f r.1 ops
    | Option.some out => out :: runFrom cfg info_f r.1 ops

/-- Run a sequence of operations from the initial state. -/
def runSeq (cfg : Config) (info_f : ℕ → ClientInfo) (ops : List Op) : List PullReq :=
  runFrom cfg info_f SchedState.init ops


/-! Basic lemmas about the list helpers. -/

theorem modifyAt_length {α : Type} (l : List α) (i : ℕ) (f : α → α) :
    (modifyAt l i f).length = l.length := by
  induction l generalizing i with
  | nil => rfl
  | cons a rest ih =>
    cases i with
    | zero => rfl
    | succ j => simpa [modifyAt] using ih j

theorem modifyAt_of_ge {α : Type} (l : List α) (i : ℕ) (f : α → α)
    (h : l.length ≤ i) : modifyAt l i f = l := by
  induction l generalizing i with
  | nil => rfl
  | cons a rest ih =>
    cases i with
    | zero => simp at h
    | succ j =>
      simp only [List.length_cons, Nat.succ_le_succ_iff] at h
      simp [modifyAt, ih j h]

theorem modifyAt_getD_self {α : Type} (l : List α) (i : ℕ) (f : α → α) (d : α)
    (h : i < l.length) : (modifyAt l i f).getD i d = f (l.getD i d) := by
  induction l generalizing i with
  | nil => simp at h
  | cons a rest ih =>
    cases i with
    | zero => rfl
    | succ j =>
      simp only [List.length_cons, Nat.succ_lt_succ_iff] at h
      simpa [modifyAt] using ih j h

theorem modifyAt_getD_ne {α : Type} (l : List α) (i j : ℕ) (f : α → α) (d : α)
    (h : j ≠ i) : (modifyAt l i f).getD j d = l.getD j d := by
  induction l generalizing i j with
  | nil => rfl
  | cons a rest ih =>
    cases i with
    | zero =>
      cases j with
      | zero => exact absurd rfl h
      | succ k => rfl
    | succ i1 =>
      cases j with
      | zero => rfl
      | succ k =>
        have : k ≠ i1 := fun hk => h (by simp [hk])
        simpa [modifyAt] using ih i1 k this

theorem clientAt_modifyAt_self (l : List ClientRec) (i : ℕ) (f : ClientRec → ClientRec)
    (h : i < l.length) : clientAt (modifyAt l i f) i = f (clientAt l i) :=
  modifyAt_getD_self l i f defaultClientRec h

theorem clientAt_modifyAt_ne (l : List ClientRec) (i j : ℕ) (f : ClientRec → ClientRec)
    (h : j ≠ i) : clientAt (modifyAt l i f) j = clientAt l j :=
  modifyAt_getD_ne l i j f defaultClientRec h

theorem clientAt_of_ge (l : List ClientRec) (i : ℕ) (h : l.length ≤ i) :
    clientAt l i = defaultClientRec := by
  unfold clientAt
  induction l generalizing i with
  | nil => cases i <;> rfl
  | cons a rest ih =>
    cases i with
    | zero => simp at h
    | succ j =>
      simp only [List.length_cons, Nat.succ_le_succ_iff] at h
      simpa using ih j h

theorem default_no_request : defaultClientRec.has_request = false := rfl

/-! Lemmas about the client-map lookup. -/

theorem findClientIdx_none_of (cid : ℕ) (l : List ClientRec)
    (h : ∀ c ∈ l, c.client ≠ cid) : findClientIdx cid l = Option.none := by
  induction l with
  | nil => rfl
  | cons a rest ih =>
    have ha : a.client ≠ cid := h a (List.mem_cons_self a rest)
    have hr : ∀ c ∈ rest, c.client ≠ cid := fun c hc => h c (List.mem_cons_of_mem a hc)
    simp [findClientIdx, ha, ih hr]

theorem findClientIdx_lt (cid : ℕ) (l : List ClientRec) (i : ℕ)
    (h : findClientIdx cid l = Option.some i) : i < l.length := by
  induction l generalizing i with
  | nil => simp [findClientIdx] at h
  | cons a rest ih =>
    by_cases ha : a.client = cid
    · simp only [findClientIdx, ha, if_true, Option.some.injEq] at h
      subst h
      simp
    · simp only [findClientIdx, ha, if_false] at h
      cases hrec : findClientIdx cid rest with
      | none => rw [hrec] at h; exact absurd h (by simp)
      | some j =>
        rw [hrec] at h
        simp only [Option.some.injEq] at h
        subst h
        have := ih j hrec
        simp only [List.length_cons]
        omega

theorem findClientIdx_id (cid : ℕ) (l : List ClientRec) (i : ℕ)
    (h : findClientIdx cid l = Option.some i) : (clientAt l i).client = cid := by
  induction l generalizing i with
  | nil => simp [findClientIdx] at h
  | cons a rest ih =>
    by_cases ha : a.client = cid
    · simp only [findClientIdx, ha, if_true, Option.some.injEq] at h
      subst h
      simpa [clientAt] using ha
    · simp only [findClientIdx, ha, if_false] at h
      cases hrec : findClientIdx cid rest with
      | none => rw [hrec] at h; exact absurd h (by simp)
      | some j =>
        rw [hrec] at h
        simp only [Option.some.injEq] at h
        subst h
        simpa [clientAt] using ih j hrec

theorem findClientIdx_congr (cid : ℕ) (l l' : List ClientRec)
    (h : l.map ClientRec.client = l'.map ClientRec.client) :
    findClientIdx cid l = findClientIdx cid l' := by
  induction l generalizing l' with
  | nil =>
    cases l' with
    | nil => rfl
    | cons b r => simp at h
  | cons a rest ih =>
    cases l' with
    | nil => simp at h
    | cons b r =>
      simp only [List.map_cons, List.cons.injEq] at h
      simp [findClientIdx, h.1, ih r h.2]

theorem findClientIdx_of_nodup (cid : ℕ) (l : List ClientRec) (i : ℕ)
    (hn : (l.map ClientRec.client).Nodup) (hi : i < l.length)
    (hid : (clientAt l i).client = cid) : findClientIdx cid l = Option.some i := by
  induction l generalizing i with
  | nil => simp at hi
  | cons a rest ih =>
    simp only [List.map_cons, List.nodup_cons] at hn
    cases i with
    | zero =>
      have : a.client = cid := hid
      simp [findClientIdx, this]
    | succ j =>
      have hj : j < rest.length := by
        simp only [List.length_cons, Nat.succ_lt_succ_iff] at hi
        exact hi
      have hjid : (clientAt rest j).client = cid := hid
      have ha : a.client ≠ cid := by
        intro hac
        apply hn.1
        have hmem : clientAt rest j ∈ rest := by
          unfold clientAt
          rw [List.getD_eq_getElem rest defaultClientRec hj]
          exact List.getElem_mem hj
        have : (clientAt rest j).client ∈ rest.map ClientRec.client :=
          List.mem_map_of_mem ClientRec.client hmem
        rw [hjid, ← hac] at this
        exact this
      rw [findClientIdx]
      simp only [ha, if_false]
      rw [ih j hn.2 hj hjid]

/-! Agreement between the vector comparator (ClientCompareAtOnce) and
the three heap comparator instantiations. -/

theorem ccao_resv_eq (n1 n2 : ClientRec) :
    ClientCompareAtOnce_resv n1 n2 = cmpResv n1 n2 := by
  unfold ClientCompareAtOnce_resv cmpResv ClientCompare
  by_cases h1 : n1.has_request <;> by_cases h2 : n2.has_request <;> simp [h1, h2]

theorem ccao_ready_eq (n1 n3 : ClientRec) :
    ClientCompareAtOnce_ready n1 n3 = cmpReady n1 n3 := by
  unfold ClientCompareAtOnce_ready cmpReady ClientCompare
  by_cases h1 : n1.has_request <;> by_cases h3 : n3.has_request <;>
    simp only [h1, h3, if_true, if_false, Bool.false_eq_true, if_neg]
  by_cases hr : n1.next_request.tag.ready = n3.next_request.tag.ready <;>
    simp [hr, ReadyOption.raises]

theorem ccao_limit_eq (n1 n4 : ClientRec) :
    ClientCompareAtOnce_limit n1 n4 = cmpLimit n1 n4 := by
  unfold ClientCompareAtOnce_limit cmpLimit ClientCompare
  by_cases h1 : n1.has_request <;> by_cases h4 : n4.has_request <;>
    simp only [h1, h4, if_true, if_false, Bool.false_eq_true, if_neg]
  by_cases hr : n1.next_request.tag.ready = n4.next_request.tag.ready <;>
    simp [hr, ReadyOption.lowers]

/-! The combined vector sweeps compute the componentwise stable minima. -/

theorem foldl_pair {β : Type} (L : List β) (F G : ℕ → β → ℕ) (a b : ℕ) :
    L.foldl (fun t i => (F t.1 i, G t.2 i)) (a, b) = (L.foldl F a, L.foldl G b) := by
  induction L generalizing a b with
  | nil => rfl
  | cons x xs ih => simpa [List.foldl] using ih (F a x) (G b x)

theorem foldl_triple {β : Type} (L : List β) (F G H : ℕ → β → ℕ) (a b c : ℕ) :
    L.foldl (fun t i => (F t.1 i, G t.2.1 i, H t.2.2 i)) (a, b, c) =
      (L.foldl F a, L.foldl G b, L.foldl H c) := by
  induction L generalizing a b c with
  | nil => rfl
  | cons x xs ih => simpa [List.foldl] using ih (F a x) (G b x) (H c x)

theorem IIVadjust_eq (data : List ClientRec) :
    IIVadjust data =
      (argminIdx cmpResv data, argminIdx cmpReady data, argminIdx cmpLimit data) := by
  unfold IIVadjust argminIdx
  simp only [ccao_resv_eq, ccao_ready_eq, ccao_limit_eq]
  exact foldl_triple (List.range' 1 (data.length - 1))
    (fun best i => if cmpResv (clientAt data i) (clientAt data best) = true then i else best)
    (fun best i => if cmpReady (clientAt data i) (clientAt data best) = true then i else best)
    (fun best i => if cmpLimit (clientAt data i) (clientAt data best) = true then i else best)
    0 0 0

theorem IIVadjust_ready_limit_eq (data : List ClientRec) :
    IIVadjust_ready_limit data = (argminIdx cmpReady data, argminIdx cmpLimit data) := by
  unfold IIVadjust_ready_limit argminIdx
  simp only [ccao_ready_eq, ccao_limit_eq]
  exact foldl_pair (List.range' 1 (data.length - 1))
    (fun best i => if cmpReady (clientAt data i) (clientAt data best) = true then i else best)
    (fun best i => if cmpLimit (clientAt data i) (clientAt data best) = true then i else best)
    0 0

theorem IIVadjust_resv_eq (data : List ClientRec) :
    IIVadjust_resv data = argminIdx cmpResv data := by
  unfold IIVadjust_resv argminIdx
  simp only [ccao_resv_eq]

/-! Congruence for the stable minima under modifications that do not
affect the fields a view order reads. -/

theorem argminIdx_congr (cmp : ClientRec → ClientRec → Bool) (d d' : List ClientRec)
    (hlen : d'.length = d.length)
    (h : ∀ i j, cmp (clientAt d' i) (clientAt d' j) = cmp (clientAt d i) (clientAt d j)) :
    argminIdx cmp d' = argminIdx cmp d := by
  unfold argminIdx
  rw [hlen]
  congr 1
  funext best i
  rw [h]

theorem ClientCompare_ext (tag_field : RequestTag → Tg) (ready_opt : ReadyOption)
    (use_prop_delta : Bool) (a a' b b' : ClientRec)
    (ha1 : a'.has_request = a.has_request)
    (ha2 : tag_field a'.next_request.tag = tag_field a.next_request.tag)
    (ha3 : a'.next_request.tag.ready = a.next_request.tag.ready)
    (ha4 : a'.prop_delta = a.prop_delta)
    (hb1 : b'.has_request = b.has_request)
    (hb2 : tag_field b'.next_request.tag = tag_field b.next_request.tag)
    (hb3 : b'.next_request.tag.ready = b.next_request.tag.ready)
    (hb4 : b'.prop_delta = b.prop_delta) :
    ClientCompare tag_field ready_opt use_prop_delta a' b' =
      ClientCompare tag_field ready_opt use_prop_delta a b := by
  unfold ClientCompare
  rw [ha1, ha2, ha3, ha4, hb1, hb2, hb3, hb4]

/-! Field-preservation lemmas and comparator extensionality. -/

theorem markFrontReady_fields (c : ClientRec) :
    (markFrontReady c).has_request = c.has_request ∧
    (markFrontReady c).next_request.tag.reservation = c.next_request.tag.reservation ∧
    (markFrontReady c).client = c.client := by
  cases h : c.requests with
  | nil => simp [markFrontReady, ClientRec.has_request, ClientRec.next_request, h]
  | cons r rs => simp [markFrontReady, ClientRec.has_request, ClientRec.next_request, h]

theorem reduceResTagsRec_fields (c : ClientRec) :
    (reduceResTagsRec c).has_request = c.has_request ∧
    (reduceResTagsRec c).next_request.tag.proportion = c.next_request.tag.proportion ∧
    (reduceResTagsRec c).next_request.tag.limit = c.next_request.tag.limit ∧
    (reduceResTagsRec c).next_request.tag.ready = c.next_request.tag.ready ∧
    (reduceResTagsRec c).prop_delta = c.prop_delta ∧
    (reduceResTagsRec c).client = c.client := by
  cases h : c.requests with
  | nil => simp [reduceResTagsRec, ClientRec.has_request, ClientRec.next_request, h]
  | cons r rs => simp [reduceResTagsRec, ClientRec.has_request, ClientRec.next_request, h]

theorem cmpResv_ext (a a' b b' : ClientRec)
    (ha1 : a'.has_request = a.has_request)
    (ha2 : a'.next_request.tag.reservation = a.next_request.tag.reservation)
    (hb1 : b'.has_request = b.has_request)
    (hb2 : b'.next_request.tag.reservation = b.next_request.tag.reservation) :
    cmpResv a' b' = cmpResv a b := by
  by_cases h1 : a.has_request <;> by_cases h2 : b.has_request <;>
    simp [cmpResv, ClientCompare, ha1, ha2, hb1, hb2, h1, h2]

theorem cmpReady_ext (a a' b b' : ClientRec)
    (ha1 : a'.has_request = a.has_request)
    (ha2 : a'.next_request.tag.proportion = a.next_request.tag.proportion)
    (ha3 : a'.next_request.tag.ready = a.next_request.tag.ready)
    (ha4 : a'.prop_delta = a.prop_delta)
    (hb1 : b'.has_request = b.has_request)
    (hb2 : b'.next_request.tag.proportion = b.next_request.tag.proportion)
    (hb3 : b'.next_request.tag.ready = b.next_request.tag.ready)
    (hb4 : b'.prop_delta = b.prop_delta) :
    cmpReady a' b' = cmpReady a b := by
  by_cases h1 : a.has_request <;> by_cases h2 : b.has_request <;>
    simp [cmpReady, ClientCompare, ha1, ha2, ha3, ha4, hb1, hb2, hb3, hb4, h1, h2]

theorem cmpLimit_ext (a a' b b' : ClientRec)
    (ha1 : a'.has_request = a.has_request)
    (ha2 : a'.next_request.tag.limit = a.next_request.tag.limit)
    (ha3 : a'.next_request.tag.ready = a.next_request.tag.ready)
    (hb1 : b'.has_request = b.has_request)
    (hb2 : b'.next_request.tag.limit = b.next_request.tag.limit)
    (hb3 : b'.next_request.tag.ready = b.next_request.tag.ready) :
    cmpLimit a' b' = cmpLimit a b := by
  by_cases h1 : a.has_request <;> by_cases h2 : b.has_request <;>
    simp [cmpLimit, ClientCompare, ha1, ha2, ha3, hb1, hb2, hb3, h1, h2]

theorem clientAt_modifyAt_cases (l : List ClientRec) (k i : ℕ) (f : ClientRec → ClientRec) :
    clientAt (modifyAt l k f) i = clientAt l i ∨
    (i = k ∧ i < l.length ∧ clientAt (modifyAt l k f) i = f (clientAt l i)) := by
  by_cases hik : i = k
  · subst hik
    by_cases hlt : i < l.length
    · exact Or.inr ⟨rfl, hlt, clientAt_modifyAt_self l i f hlt⟩
    · left
      unfold clientAt
      rw [modifyAt_of_ge l i f (le_of_not_lt hlt)]
  · exact Or.inl (clientAt_modifyAt_ne l k i f hik)

theorem argmin_resv_setFrontReady (data : List ClientRec) (k : ℕ) :
    argminIdx cmpResv (setFrontReady data k) = argminIdx cmpResv data := by
  unfold setFrontReady
  apply argminIdx_congr
  · exact modifyAt_length data k markFrontReady
  · intro i j
    have hres : ∀ m : ℕ,
        (clientAt (modifyAt data k markFrontReady) m).has_request =
          (clientAt data m).has_request ∧
        (clientAt (modifyAt data k markFrontReady) m).next_request.tag.reservation =
          (clientAt data m).next_request.tag.reservation := by
      intro m
      rcases clientAt_modifyAt_cases data k m markFrontReady with heq | ⟨_, _, heq⟩
      · rw [heq]; exact ⟨rfl, rfl⟩
      · rw [heq]
        exact ⟨(markFrontReady_fields _).1, (markFrontReady_fields _).2.1⟩
    exact cmpResv_ext _ _ _ _ (hres i).1 (hres i).2 (hres j).1 (hres j).2

theorem argmin_ready_modReduce (data : List ClientRec) (k : ℕ) :
    argminIdx cmpReady (modifyAt data k reduceResTagsRec) = argminIdx cmpReady data := by
  apply argminIdx_congr
  · exact modifyAt_length data k reduceResTagsRec
  · intro i j
    have hfld : ∀ m : ℕ,
        (clientAt (modifyAt data k reduceResTagsRec) m).has_request =
          (clientAt data m).has_request ∧
        (clientAt (modifyAt data k reduceResTagsRec) m).next_request.tag.proportion =
          (clientAt data m).next_request.tag.proportion ∧
        (clientAt (modifyAt data k reduceResTagsRec) m).next_request.tag.ready =
          (clientAt data m).next_request.tag.ready ∧
        (clientAt (modifyAt data k reduceResTagsRec) m).prop_delta =
          (clientAt data m).prop_delta := by
      intro m
      rcases clientAt_modifyAt_cases data k m reduceResTagsRec with heq | ⟨_, _, heq⟩
      · rw [heq]; exact ⟨rfl, rfl, rfl, rfl⟩
      · rw [heq]
        refine ⟨(reduceResTagsRec_fields _).1, (reduceResTagsRec_fields _).2.1,
          (reduceResTagsRec_fields _).2.2.2.1, (reduceResTagsRec_fields _).2.2.2.2.1⟩
    exact cmpReady_ext _ _ _ _ (hfld i).1 (hfld i).2.1 (hfld i).2.2.1 (hfld i).2.2.2
      (hfld j).1 (hfld j).2.1 (hfld j).2.2.1 (hfld j).2.2.2

theorem argmin_limit_modReduce (data : List ClientRec) (k : ℕ) :
    argminIdx cmpLimit (modifyAt data k reduceResTagsRec) = argminIdx cmpLimit data := by
  apply argminIdx_congr
  · exact modifyAt_length data k reduceResTagsRec
  · intro i j
    have hfld : ∀ m : ℕ,
        (clientAt (modifyAt data k reduceResTagsRec) m).has_request =
          (clientAt data m).has_request ∧
        (clientAt (modifyAt data k reduceResTagsRec) m).next_request.tag.limit =
          (clientAt data m).next_request.tag.limit ∧
        (clientAt (modifyAt data k reduceResTagsRec) m).next_request.tag.ready =
          (clientAt data m).next_request.tag.ready := by
      intro m
      rcases clientAt_modifyAt_cases data k m reduceResTagsRec with heq | ⟨_, _, heq⟩
      · rw [heq]; exact ⟨rfl, rfl, rfl⟩
      · rw [heq]
        exact ⟨(reduceResTagsRec_fields _).1, (reduceResTagsRec_fields _).2.2.1,
          (reduceResTagsRec_fields _).2.2.2.1⟩
    exact cmpLimit_ext _ _ _ _ (hfld i).1 (hfld i).2.1 (hfld i).2.2
      (hfld j).1 (hfld j).2.1 (hfld j).2.2

/-! Cursor freshness: the invariant of the vector cursors in every
state the code can reach. -/

def cursorsFresh (st : SchedState) : Prop :=
  st.resv = argminIdx cmpResv st.clients ∧
  st.ready = argminIdx cmpReady st.clients ∧
  st.limit = argminIdx cmpLimit st.clients

instance (st : SchedState) : Decidable (cursorsFresh st) := by
  unfold cursorsFresh
  infer_instance

/-- A reachable state: when the vector implementation is selected,
every cursor equals the stable minimum of its view. -/
def goodState (cfg : Config) (st : SchedState) : Prop :=
  cfg.use_heap = false → cursorsFresh st

instance (cfg : Config) (st : SchedState) : Decidable (goodState cfg st) := by
  unfold goodState
  infer_instance

theorem promoteStep_clients (cfg : Config) (st : SchedState) :
    (promoteStep cfg st).clients = setFrontReady st.clients (topLimitIdx cfg st) := by
  unfold promoteStep
  by_cases h : cfg.use_heap <;> simp [h]

theorem promoteStep_resv (cfg : Config) (st : SchedState) :
    (promoteStep cfg st).resv = st.resv := by
  unfold promoteStep
  by_cases h : cfg.use_heap <;> simp [h]

theorem promoteStep_tick (cfg : Config) (st : SchedState) :
    (promoteStep cfg st).tick = st.tick := by
  unfold promoteStep
  by_cases h : cfg.use_heap <;> simp [h]

theorem promoteGo_length (cfg : Config) (now : ℚ) (fuel : ℕ) :
    ∀ st : SchedState, (promoteGo cfg now fuel st).clients.length = st.clients.length := by
  induction fuel with
  | zero => intro st; rfl
  | succ n ih =>
    intro st
    rw [promoteGo]
    by_cases hg : promoteGuard cfg now st = true
    · rw [if_pos hg, ih]
      rw [promoteStep_clients]
      unfold setFrontReady
      exact modifyAt_length _ _ _
    · rw [if_neg hg]

theorem promoteGo_tick (cfg : Config) (now : ℚ) (fuel : ℕ) :
    ∀ st : SchedState, (promoteGo cfg now fuel st).tick = st.tick := by
  induction fuel with
  | zero => intro st; rfl
  | succ n ih =>
    intro st
    rw [promoteGo]
    by_cases hg : promoteGuard cfg now st = true
    · rw [if_pos hg, ih, promoteStep_tick]
    · rw [if_neg hg]

theorem promoteStep_fresh (cfg : Config) (st : SchedState)
    (hv : cfg.use_heap = false) (h : cursorsFresh st) :
    cursorsFresh (promoteStep cfg st) := by
  unfold promoteStep
  rw [hv]
  simp only [Bool.false_eq_true, if_false]
  constructor
  · show st.resv = argminIdx cmpResv (setFrontReady st.clients (topLimitIdx cfg st))
    rw [argmin_resv_setFrontReady]
    exact h.1
  constructor
  · show (IIVadjust_ready_limit (setFrontReady st.clients (topLimitIdx cfg st))).1 =
      argminIdx cmpReady (setFrontReady st.clients (topLimitIdx cfg st))
    rw [IIVadjust_ready_limit_eq]
  · show (IIVadjust_ready_limit (setFrontReady st.clients (topLimitIdx cfg st))).2 =
      argminIdx cmpLimit (setFrontReady st.clients (topLimitIdx cfg st))
    rw [IIVadjust_ready_limit_eq]

theorem promoteGo_good (cfg : Config) (now : ℚ) (fuel : ℕ) :
    ∀ st : SchedState, goodState cfg st → goodState cfg (promoteGo cfg now fuel st) := by
  induction fuel with
  | zero => intro st h; exact h
  | succ n ih =>
    intro st h
    rw [promoteGo]
    by_cases hg : promoteGuard cfg now st = true
    · rw [if_pos hg]
      apply ih
      intro hv
      exact promoteStep_fresh cfg st hv (h hv)
    · rw [if_neg hg]
      exact h

/-! The promotion loop only raises ready flags of front requests whose
limit tags have matured; everything else is preserved. -/

/-- Relation between a queued request and its image under the promotion
loop: identical except that the ready flag may rise, and a rise implies
the limit tag was at most now. -/
def reqPromoted (now : ℚ) (a b : ClientReq) : Prop :=
  b.request = a.request ∧ b.client_id = a.client_id ∧
  b.tag.reservation = a.tag.reservation ∧ b.tag.proportion = a.tag.proportion ∧
  b.tag.limit = a.tag.limit ∧
  (a.tag.ready = true → b.tag.ready = true) ∧
  (a.tag.ready = false → b.tag.ready = true → Tg.le a.tag.limit (Tg.fin now) = true)

/-- Relation between a client record and its image under the promotion
loop. -/
def recPromoted (now : ℚ) (c c' : ClientRec) : Prop :=
  c'.client = c.client ∧ c'.prev_tag = c.prev_tag ∧ c'.prop_delta = c.prop_delta ∧
  c'.info = c.info ∧ c'.idle = c.idle ∧ c'.last_tick = c.last_tick ∧
  List.Forall₂ (reqPromoted now) c.requests c'.requests

theorem reqPromoted_refl (now : ℚ) (a : ClientReq) : reqPromoted now a a := by
  refine ⟨rfl, rfl, rfl, rfl, rfl, fun h => h, fun h1 h2 => ?_⟩
  rw [h1] at h2
  exact absurd h2 (by simp)

theorem reqPromoted_trans (now : ℚ) {a b c : ClientReq}
    (h1 : reqPromoted now a b) (h2 : reqPromoted now b c) : reqPromoted now a c := by
  obtain ⟨r1, i1, s1, p1, l1, m1, f1⟩ := h1
  obtain ⟨r2, i2, s2, p2, l2, m2, f2⟩ := h2
  refine ⟨r2.trans r1, i2.trans i1, s2.trans s1, p2.trans p1, l2.trans l1,
    fun h => m2 (m1 h), fun ha hc => ?_⟩
  cases hb : b.tag.ready with
  | true => exact f1 ha hb
  | false =>
    have := f2 hb hc
    rw [l1] at this
    exact this

theorem forall₂_refl_of {α : Type} {r : α → α → Prop} (hr : ∀ a, r a a) :
    ∀ l : List α, List.Forall₂ r l l := by
  intro l
  induction l with
  | nil => exact List.Forall₂.nil
  | cons a rest ih => exact List.Forall₂.cons (hr a) ih

theorem forall₂_trans_of {α : Type} {r : α → α → Prop}
    (hr : ∀ a b c, r a b → r b c → r a c) :
    ∀ {l1 l2 l3 : List α}, List.Forall₂ r l1 l2 → List.Forall₂ r l2 l3 →
      List.Forall₂ r l1 l3 := by
  intro l1 l2 l3 h12 h23
  induction h12 generalizing l3 with
  | nil => cases h23; exact List.Forall₂.nil
  | cons hab hrest ih =>
    cases h23 with
    | cons hbc hrest2 => exact List.Forall₂.cons (hr _ _ _ hab hbc) (ih hrest2)

theorem recPromoted_refl (now : ℚ) (c : ClientRec) : recPromoted now c c :=
  ⟨rfl, rfl, rfl, rfl, rfl, rfl, forall₂_refl_of (reqPromoted_refl now) c.requests⟩

theorem recPromoted_trans (now : ℚ) {a b c : ClientRec}
    (h1 : recPromoted now a b) (h2 : recPromoted now b c) : recPromoted now a c := by
  obtain ⟨c1, t1, d1, i1, e1, k1, q1⟩ := h1
  obtain ⟨c2, t2, d2, i2, e2, k2, q2⟩ := h2
  exact ⟨c2.trans c1, t2.trans t1, d2.trans d1, i2.trans i1, e2.trans e1, k2.trans k1,
    @forall₂_trans_of ClientReq (reqPromoted now)
      (fun _ _ _ hab hbc => reqPromoted_trans now hab hbc) _ _ _ q1 q2⟩

theorem markFrontReady_promoted (now : ℚ) (c : ClientRec)
    (h : c.has_request = true → c.next_request.tag.ready = false →
      Tg.le c.next_request.tag.limit (Tg.fin now) = true) :
    recPromoted now c (markFrontReady c) := by
  cases hq : c.requests with
  | nil =>
    have : markFrontReady c = c := by unfold markFrontReady; rw [hq]
    rw [this]
    exact recPromoted_refl now c
  | cons r rs =>
    have hm : markFrontReady c =
        { c with requests := { r with tag := { r.tag with ready := true } } :: rs } := by
      unfold markFrontReady
      rw [hq]
    rw [hm]
    refine ⟨rfl, rfl, rfl, rfl, rfl, rfl, ?_⟩
    rw [hq]
    refine List.Forall₂.cons ?_ (forall₂_refl_of (reqPromoted_refl now) rs)
    refine ⟨rfl, rfl, rfl, rfl, rfl, fun _ => rfl, fun ha _ => ?_⟩
    have hhas : c.has_request = true := by
      unfold ClientRec.has_request
      rw [hq]
      rfl
    have hnext : c.next_request = r := by
      unfold ClientRec.next_request
      rw [hq]
      rfl
    have := h hhas (by rw [hnext]; exact ha)
    rw [hnext] at this
    exact this

theorem setFrontReady_promoted (now : ℚ) (data : List ClientRec) (k : ℕ)
    (h : (clientAt data k).has_request = true →
      (clientAt data k).next_request.tag.ready = false →
      Tg.le (clientAt data k).next_request.tag.limit (Tg.fin now) = true) :
    ∀ i, recPromoted now (clientAt data i) (clientAt (setFrontReady data k) i) := by
  intro i
  unfold setFrontReady
  rcases clientAt_modifyAt_cases data k i markFrontReady with heq | ⟨hik, _, heq⟩
  · rw [heq]
    exact recPromoted_refl now _
  · rw [heq]
    subst hik
    exact markFrontReady_promoted now _ h

theorem promoteGo_promoted (cfg : Config) (now : ℚ) (fuel : ℕ) :
    ∀ st : SchedState, ∀ i,
      recPromoted now (clientAt st.clients i) (clientAt (promoteGo cfg now fuel st).clients i) := by
  induction fuel with
  | zero => intro st i; exact recPromoted_refl now _
  | succ n ih =>
    intro st i
    rw [promoteGo]
    by_cases hg : promoteGuard cfg now st = true
    · rw [if_pos hg]
      refine recPromoted_trans now ?_ (ih (promoteStep cfg st) i)
      rw [promoteStep_clients]
      apply setFrontReady_promoted
      intro _ hr
      unfold promoteGuard at hg
      simp only [Bool.and_eq_true, Bool.not_eq_true'] at hg
      exact hg.2
    · rw [if_neg hg]
      exact recPromoted_refl now _

/-! The idle scan computes the minimum proportion key. -/

/-- The proportion keys the idle-reactivation scan considers: front
proportion tag plus prop_delta of every non-idle client with a pending
request. -/
def propKeys (l : List ClientRec) : List Tg :=
  (l.filter (fun c => !c.idle && c.has_request)).map
    (fun c => Tg.addT c.next_request.tag.proportion c.prop_delta)

/-- The minimum of a list of tag values, none when the list is empty. -/
def minTg : List Tg → Option Tg
  | [] => Option.none
  | t :: rest => Option.some (rest.foldl Tg.minT t)

theorem lowestStep_fold (l : List ClientRec) :
    ∀ acc : Option Tg,
      l.foldl lowestStep acc =
        (match acc with
         | Option.none => minTg (propKeys l)
         | Option.some a => Option.some ((propKeys l).foldl Tg.minT a)) := by
  induction l with
  | nil => intro acc; cases acc <;> rfl
  | cons c rest ih =>
    intro acc
    by_cases hc : (!c.idle && c.has_request) = true
    · have hkeys : propKeys (c :: rest) =
          Tg.addT c.next_request.tag.proportion c.prop_delta :: propKeys rest := by
        simp [propKeys, List.filter_cons, hc]
      cases acc with
      | none =>
        have hstep : lowestStep Option.none c =
            Option.some (Tg.addT c.next_request.tag.proportion c.prop_delta) := by
          unfold lowestStep
          rw [if_pos hc]
        rw [List.foldl_cons, hstep, ih _, hkeys]
        rfl
      | some a =>
        have hstep : lowestStep (Option.some a) c =
            Option.some (Tg.minT a (Tg.addT c.next_request.tag.proportion c.prop_delta)) := by
          unfold lowestStep Tg.minT
          rw [if_pos hc]
          by_cases hlt : Tg.lt (Tg.addT c.next_request.tag.proportion c.prop_delta) a = true <;>
            simp [hlt]
        rw [List.foldl_cons, hstep, ih _, hkeys]
        rfl
    · have hkeys : propKeys (c :: rest) = propKeys rest := by
        simp [propKeys, List.filter_cons, hc]
      have hstep : lowestStep acc c = acc := by
        unfold lowestStep
        rw [if_neg hc]
      rw [List.foldl_cons, hstep, ih acc, hkeys]

theorem lowestPropTag_eq_minTg (l : List ClientRec) :
    lowestPropTag l = minTg (propKeys l) := by
  unfold lowestPropTag
  rw [lowestStep_fold l Option.none]

theorem propKeys_append_idle (l : List ClientRec) (c : ClientRec) (h : c.idle = true) :
    propKeys (l ++ [c]) = propKeys l := by
  unfold propKeys
  rw [List.filter_append]
  have : List.filter (fun c => !c.idle && c.has_request) [c] = [] := by
    simp [List.filter, h]
  rw [this, List.append_nil]

/-! Top indices under the reachability invariant. -/

theorem topResvIdx_good (cfg : Config) (st : SchedState) (h : goodState cfg st) :
    topResvIdx cfg st = argminIdx cmpResv st.clients := by
  unfold topResvIdx
  by_cases hu : cfg.use_heap = true
  · rw [if_pos hu]
  · rw [if_neg hu]
    exact (h (by simpa using hu)).1

theorem topReadyIdx_good (cfg : Config) (st : SchedState) (h : goodState cfg st) :
    topReadyIdx cfg st = argminIdx cmpReady st.clients := by
  unfold topReadyIdx
  by_cases hu : cfg.use_heap = true
  · rw [if_pos hu]
  · rw [if_neg hu]
    exact (h (by simpa using hu)).2.1

theorem topLimitIdx_good (cfg : Config) (st : SchedState) (h : goodState cfg st) :
    topLimitIdx cfg st = argminIdx cmpLimit st.clients := by
  unfold topLimitIdx
  by_cases hu : cfg.use_heap = true
  · rw [if_pos hu]
  · rw [if_neg hu]
    exact (h (by simpa using hu)).2.2

/-! Claim C2: the tag formula. -/

theorem tag_calc_eq (time : ℚ) (prev : Tg) (inv : ℚ) (dist : ℕ) (hi : Bool) :
    tag_calc time prev inv dist hi =
      (if inv = 0 then (if hi then Tg.top else Tg.bot)
       else Tg.maxT (Tg.fin time) (prev.add (inv * (if dist = 0 then 1 else (dist : ℚ))))) := by
  unfold tag_calc
  by_cases h : inv = 0
  · rw [if_pos h, if_pos h]
  · rw [if_neg h, if_neg h]
    by_cases hd : dist = 0
    · simp [hd]
    · simp [hd, qMul_eq]

/-- C2: for every arriving request with time t, previous tag p, client
info c, hints rho and delta, and cost, each tag component equals
max(t, prev + inv * (dist == 0 ? 1 : dist)), the reservation component
additionally offset by cost; when the relevant reciprocal is 0 the
reservation and proportion components are TagMax and the limit component
is TagMin; and the ready flag of the new tag is false. -/
theorem C2_tag_formula (prev : RequestTag) (r w l : ℚ) (rho delta : ℕ) (t cost : ℚ) :
    (RequestTag.make prev (ClientInfo.make r w l) rho delta t cost).reservation =
      (if (ClientInfo.make r w l).reservation_inv = 0 then Tg.top
       else (Tg.maxT (Tg.fin t)
         (prev.reservation.add ((ClientInfo.make r w l).reservation_inv *
           (if rho = 0 then 1 else (rho : ℚ))))).add cost) ∧
    (RequestTag.make prev (ClientInfo.make r w l) rho delta t cost).proportion =
      (if (ClientInfo.make r w l).weight_inv = 0 then Tg.top
       else Tg.maxT (Tg.fin t)
         (prev.proportion.add ((ClientInfo.make r w l).weight_inv *
           (if delta = 0 then 1 else (delta : ℚ))))) ∧
    (RequestTag.make prev (ClientInfo.make r w l) rho delta t cost).limit =
      (if (ClientInfo.make r w l).limit_inv = 0 then Tg.bot
       else Tg.maxT (Tg.fin t)
         (prev.limit.add ((ClientInfo.make r w l).limit_inv *
           (if delta = 0 then 1 else (delta : ℚ))))) ∧
    (RequestTag.make prev (ClientInfo.make r w l) rho delta t cost).ready = false := by
  unfold RequestTag.make
  refine ⟨?_, ?_, ?_, rfl⟩
  · show (tag_calc t prev.reservation (ClientInfo.make r w l).reservation_inv rho true).add cost = _
    rw [tag_calc_eq]
    by_cases h : (ClientInfo.make r w l).reservation_inv = 0
    · rw [if_pos h, if_pos h]
      rfl
    · rw [if_neg h, if_neg h]
  · show tag_calc t prev.proportion (ClientInfo.make r w l).weight_inv delta true = _
    rw [tag_calc_eq]
    rfl
  · show tag_calc t prev.limit (ClientInfo.make r w l).limit_inv delta false = _
    rw [tag_calc_eq]
    rfl

/-! Claim C8: remove_by_client on an unknown id is a no-op. -/

/-- C8: for every scheduler state and every client id not present in the
client map, remove_by_client leaves the entire scheduler state unchanged
and appends nothing to the sink. -/
theorem C8_remove_unknown_noop (cfg : Config) (st : SchedState) (cid : ℕ)
    (h : ∀ c ∈ st.clients, c.client ≠ cid) :
    remove_by_client cfg st cid = (st, []) := by
  unfold remove_by_client
  rw [findClientIdx_none_of cid st.clients h]

/-- Witness for C8 at a concrete reachable state: the id 99 is unknown. -/
theorem C8_witness :
    (∀ c ∈ (do_add_request { allow_limit_break := false, use_heap := true }
        (fun _ => ClientInfo.make 1 1 0) SchedState.init 1 5 0 0 0 0).clients,
      c.client ≠ 99) ∧
    remove_by_client { allow_limit_break := false, use_heap := true }
      (do_add_request { allow_limit_break := false, use_heap := true }
        (fun _ => ClientInfo.make 1 1 0) SchedState.init 1 5 0 0 0 0) 99 =
      ((do_add_request { allow_limit_break := false, use_heap := true }
        (fun _ => ClientInfo.make 1 1 0) SchedState.init 1 5 0 0 0 0), []) := by
  constructor
  · decide
  · exact C8_remove_unknown_noop _ _ 99 (by decide)


/-! Concrete scenarios. -/

/-- Decidable equality for Except results, used to evaluate the
remove_by_req_filter outcome on concrete states. -/
instance exceptDecEq {e a : Type} [DecidableEq e] [DecidableEq a] :
    DecidableEq (Except e a) := fun x y =>
  match x, y with
  | Except.error u, Except.error v =>
    if h : u = v then Decidable.isTrue (by rw [h])
    else Decidable.isFalse (by intro hh; cases hh; exact h rfl)
  | Except.error _, Except.ok _ => Decidable.isFalse (by intro hh; cases hh)
  | Except.ok _, Except.error _ => Decidable.isFalse (by intro hh; cases hh)
  | Except.ok u, Except.ok v =>
    if h : u = v then Decidable.isTrue (by rw [h])
    else Decidable.isFalse (by intro hh; cases hh; exact h rfl)

/-- Scenario configuration: no limit break, heap selection (the default
construction of the pull queue). -/
def sCfg : Config := { allow_limit_break := false, use_heap := true }

/-- Scenario S2 client information: reservation 0, weight 1, limit 2. -/
def s2Info : ℕ → ClientInfo := fun _ => ClientInfo.make 0 1 2

/-- The five S2 enqueues of client 7 at time 0. -/
def s2Adds : List Op :=
  [Op.add 1 7 0 0 0 0, Op.add 2 7 0 0 0 0, Op.add 3 7 0 0 0 0,
   Op.add 4 7 0 0 0 0, Op.add 5 7 0 0 0 0]

/-- Quarters, in a kernel-reducible form. -/
def q4 (n : ℤ) : ℚ := Rat.divInt n 4

/-- The S2 state after the five enqueues. -/
def s2State : SchedState :=
  s2Adds.foldl (fun st op => (runOp sCfg s2Info st op).1) SchedState.init

/-- C6 counterexample: with a single client with reservation 0, weight
1, limit 2, no limit break, and 5 requests enqueued at time 0, the pull
at time 0 returns Future(0.5) - the first request's limit tag is
max(0, 0 + 1/2) = 1/2 > 0, so no dispatch can happen at time 0. -/
theorem C6_counterexample :
    (pull_request sCfg s2State 0).1 = PullReq.future (Tg.fin (1/2)) := by
  have h : (1/2 : ℚ) = q4 2 := by
    unfold q4
    rw [Rat.divInt_eq_div]
    norm_num
  rw [h]
  decide

/-- C6 amended: the pull at time 0 returns Future(0.5); the first
dispatch occurs at time 0.5; the pulls at times 0.5, 1.0, 1.5 and 2.0
each yield one request with phase priority, and pulls at intervening
times return Future with the next limit deadline. -/
theorem C6_amended_schedule :
    runSeq sCfg s2Info (s2Adds ++ [Op.pull 0, Op.pull (q4 1), Op.pull (q4 2), Op.pull (q4 3),
      Op.pull 1, Op.pull (q4 5), Op.pull (q4 6), Op.pull (q4 7), Op.pull 2]) =
    [PullReq.future (Tg.fin (q4 2)), PullReq.future (Tg.fin (q4 2)),
     PullReq.retn { client := 7, request := 1, phase := PhaseType.priority },
     PullReq.future (Tg.fin 1),
     PullReq.retn { client := 7, request := 2, phase := PhaseType.priority },
     PullReq.future (Tg.fin (q4 6)),
     PullReq.retn { client := 7, request := 3, phase := PhaseType.priority },
     PullReq.future (Tg.fin 2),
     PullReq.retn { client := 7, request := 4, phase := PhaseType.priority }] := by decide

/-- C9 scenario: a single client with reservation 1, weight 0, limit 0
(weight 0 with nonzero reservation), one request enqueued at time 0. -/
def c9State : SchedState :=
  do_add_request sCfg (fun _ => ClientInfo.make 1 0 0) SchedState.init 1 3 0 0 0 0

/-- C9: the future-branch assertion of do_next_request fails on a
reachable input.  At time 0 the client's reservation tag is 1 > 0, its
limit tag is TagMin (limit 0 means unlimited), so the promotion loop
marks its front request ready; its proportion tag is TagMax (weight 0),
so the proportional phase cannot fire; the execution then reaches the
future block with the limit top holding a ready front request, and
assert(!next.tag.ready) fires. -/
theorem C9_future_assert_fires : futureAssertViolated sCfg c9State 0 = true := by decide

/-- C10 scenario: client 5 with weight 1 enqueues one request at time 0
which is pulled at time 1, leaving the client in the map with an empty
queue. -/
def c10State : SchedState :=
  (pull_request sCfg
    (do_add_request sCfg (fun _ => ClientInfo.make 0 1 0) SchedState.init 1 5 0 0 0 0) 1).2

/-- C10: remove_by_req_filter with visit_backwards over a map holding a
client with an empty queue reaches undefined behavior: the backwards
per-client walk initializes its iterator as the decrement of
requests.end() with no emptiness check, stepping before the beginning
of the empty deque. -/
theorem C10_backwards_empty_queue_ub :
    c10State.clients.map (fun c => c.requests.isEmpty) = [true] ∧
    remove_by_req_filter sCfg c10State (fun _ => true) true = Except.error () := by
  constructor
  · decide
  · decide

/-! Claim C5: the idle-reactivation adjustment. -/

theorem setCursors_clients (x : SchedState) : (setCursors x).clients = x.clients := rfl

theorem clientAt_append_self (l : List ClientRec) (c : ClientRec) :
    clientAt (l ++ [c]) l.length = c := by
  unfold clientAt
  induction l with
  | nil => rfl
  | cons a rest ih => simp [ih]

/-- C5: for every add_request at time t for a client whose idle flag is
true (or which is created by this call, hence idle): if the set of other
non-idle clients with a pending request is non-empty, the client's
prop_delta becomes the minimum over that set of front proportion tag
plus prop_delta, minus t; if the set is empty prop_delta is unchanged;
in both cases idle becomes false. -/
theorem C5_idle_reactivation (cfg : Config) (info_f : ℕ → ClientInfo) (st : SchedState)
    (request client_id rho delta : ℕ) (time cost : ℚ)
    (hidle : match findClientIdx client_id st.clients with
      | Option.some i => (clientAt st.clients i).idle = true
      | Option.none => True) :
    (clientAt (do_add_request cfg info_f st request client_id rho delta time cost).clients
        (ensureClient cfg info_f { st with tick := st.tick + 1 } client_id (st.tick + 1)).2).idle
      = false ∧
    (clientAt (do_add_request cfg info_f st request client_id rho delta time cost).clients
        (ensureClient cfg info_f { st with tick := st.tick + 1 } client_id (st.tick + 1)).2).prop_delta
      =
      (match minTg (propKeys st.clients) with
       | Option.some m => Tg.addT m (Tg.fin (-time))
       | Option.none =>
         (match findClientIdx client_id st.clients with
          | Option.some i => (clientAt st.clients i).prop_delta
          | Option.none => Tg.fin 0)) := by
  cases hens : ensureClient cfg info_f { st with tick := st.tick + 1 } client_id (st.tick + 1) with
  | mk st1 ci =>
    have hmain : ci < st1.clients.length ∧ (clientAt st1.clients ci).idle = true ∧
        propKeys st1.clients = propKeys st.clients ∧
        (clientAt st1.clients ci).prop_delta =
          (match findClientIdx client_id st.clients with
           | Option.some i => (clientAt st.clients i).prop_delta
           | Option.none => Tg.fin 0) := by
      unfold ensureClient at hens
      cases hfind : findClientIdx client_id st.clients with
      | some i =>
        rw [show findClientIdx client_id
            ({ st with tick := st.tick + 1 } : SchedState).clients =
            Option.some i from hfind] at hens
        dsimp only at hens
        have h1 : st1 = { st with tick := st.tick + 1 } := (Prod.mk.injEq _ _ _ _ ▸ hens).1.symm
        have h2 : ci = i := (Prod.mk.injEq _ _ _ _ ▸ hens).2.symm
        subst h1
        subst h2
        have hidle2 : (clientAt st.clients ci).idle = true := by
          rw [hfind] at hidle
          exact hidle
        exact ⟨findClientIdx_lt client_id st.clients ci hfind, hidle2, rfl, rfl⟩
      | none =>
        rw [show findClientIdx client_id
            ({ st with tick := st.tick + 1 } : SchedState).clients =
            Option.none from hfind] at hens
        dsimp only at hens
        have h2 : ci = st.clients.length := (Prod.mk.injEq _ _ _ _ ▸ hens).2.symm
        have h1 : st1.clients = st.clients ++
            [ClientRec.create client_id (info_f client_id) (st.tick + 1)] := by
          have hfst := (Prod.mk.injEq _ _ _ _ ▸ hens).1.symm
          by_cases hu : cfg.use_heap = true <;>
            rw [hfst] <;> simp only [hu, Bool.false_eq_true, if_true, if_false]
        subst h2
        rw [h1, clientAt_append_self]
        refine ⟨?_, rfl, ?_, rfl⟩
        · rw [List.length_append]
          simp
        · exact propKeys_append_idle st.clients _ rfl
    obtain ⟨hlt, hidle1, hkeys, hdelta⟩ := hmain
    have hresult :
        (do_add_request cfg info_f st request client_id rho delta time cost).clients =
          modifyAt st1.clients ci (fun c =>
            let c1 := idleAdjustRec st1.clients time c
            let tag := RequestTag.make c1.prev_tag c1.info rho delta time cost
            { c1 with
              requests := c1.requests ++
                [{ tag := tag, client_id := client_id, request := request }]
            , prev_tag := tag
            , last_tick := st.tick + 1 }) := by
      unfold do_add_request
      dsimp only
      rw [hens]
      dsimp only
      by_cases hu : cfg.use_heap = true <;>
        simp only [hu, Bool.false_eq_true, if_true, if_false, setCursors_clients]
    dsimp only
    rw [hresult, clientAt_modifyAt_self st1.clients ci _ hlt]
    have hadj : idleAdjustRec st1.clients time (clientAt st1.clients ci) =
        { (match lowestPropTag st1.clients with
           | Option.some low =>
             { (clientAt st1.clients ci) with prop_delta := Tg.addT low (Tg.fin (-time)) }
           | Option.none => clientAt st1.clients ci) with idle := false } := by
      unfold idleAdjustRec
      rw [if_pos hidle1]
    constructor
    · show (idleAdjustRec st1.clients time (clientAt st1.clients ci)).idle = false
      rw [hadj]
    · show (idleAdjustRec st1.clients time (clientAt st1.clients ci)).prop_delta = _
      rw [hadj, lowestPropTag_eq_minTg, hkeys]
      cases minTg (propKeys st.clients) with
      | some m => rfl
      | none => exact hdelta


/-- C5 witness scenario: client 1 (weight 1) enqueues at time 0 and is
non-idle with a pending request whose proportion key is 1; client 2 is
new (hence idle) and enqueues at time 5. -/
def c5Cfg : Config := { allow_limit_break := false, use_heap := true }

def c5Info : ℕ → ClientInfo := fun _ => ClientInfo.make 0 1 0

def c5StA : SchedState := do_add_request c5Cfg c5Info SchedState.init 1 1 0 0 0 0

/-- Witness for C5: applying the theorem at the concrete scenario, the
new client's prop_delta becomes 1 - 5 = -4 and its idle flag clears. -/
theorem C5_witness :
    minTg (propKeys c5StA.clients) = Option.some (Tg.fin 1) ∧
    (clientAt (do_add_request c5Cfg c5Info c5StA 2 2 0 0 5 0).clients
        (ensureClient c5Cfg c5Info { c5StA with tick := c5StA.tick + 1 } 2
          (c5StA.tick + 1)).2).idle = false ∧
    (clientAt (do_add_request c5Cfg c5Info c5StA 2 2 0 0 5 0).clients
        (ensureClient c5Cfg c5Info { c5StA with tick := c5StA.tick + 1 } 2
          (c5StA.tick + 1)).2).prop_delta = Tg.fin (-4) := by
  refine ⟨by decide, ?_, ?_⟩
  · exact (C5_idle_reactivation c5Cfg c5Info c5StA 2 2 0 0 5 0 (by trivial)).1
  · have h := (C5_idle_reactivation c5Cfg c5Info c5StA 2 2 0 0 5 0 (by trivial)).2
    rw [h]
    decide

/-! Claim C1: the two-phase dispatch priority order. -/

/-- C1: for every reachable scheduler state with at least one client and
every time now, do_next_request decides in strict priority order: if the
client R minimal in the reservation view has a pending request with
reservation tag at most now, it returns returning(reservation); only
otherwise, after promoting ready requests, if the client Y minimal in
the ready view has a pending front request with ready true and
proportion tag strictly below TagMax, it returns returning(ready). -/
theorem C1_dispatch_priority_order (cfg : Config) (st : SchedState) (now : ℚ)
    (hgood : goodState cfg st) (hne : st.clients ≠ []) :
    (((clientAt st.clients (argminIdx cmpResv st.clients)).has_request = true ∧
      Tg.le (clientAt st.clients
        (argminIdx cmpResv st.clients)).next_request.tag.reservation (Tg.fin now) = true) →
      (do_next_request cfg st now).1 = NextReq.returning HeapId.reservation) ∧
    (¬ ((clientAt st.clients (argminIdx cmpResv st.clients)).has_request = true ∧
      Tg.le (clientAt st.clients
        (argminIdx cmpResv st.clients)).next_request.tag.reservation (Tg.fin now) = true) →
      (((clientAt (promoteLoop cfg now st).clients
          (argminIdx cmpReady (promoteLoop cfg now st).clients)).has_request = true ∧
        (clientAt (promoteLoop cfg now st).clients
          (argminIdx cmpReady (promoteLoop cfg now st).clients)).next_request.tag.ready = true ∧
        Tg.lt (clientAt (promoteLoop cfg now st).clients
          (argminIdx cmpReady (promoteLoop cfg now st).clients)).next_request.tag.proportion
          Tg.top = true) →
        (do_next_request cfg st now).1 = NextReq.returning HeapId.ready)) := by
  have hne2 : st.clients.isEmpty = false := by
    cases hcl : st.clients with
    | nil => exact absurd hcl hne
    | cons a rest => rfl
  have hr : topResvIdx cfg st = argminIdx cmpResv st.clients := topResvIdx_good cfg st hgood
  have hgood1 : goodState cfg (promoteLoop cfg now st) :=
    promoteGo_good cfg now (countNonReady st.clients) st hgood
  have hy : topReadyIdx cfg (promoteLoop cfg now st) =
      argminIdx cmpReady (promoteLoop cfg now st).clients :=
    topReadyIdx_good cfg _ hgood1
  constructor
  · intro hc
    unfold do_next_request
    simp only [hne2, Bool.false_eq_true, if_false]
    rw [hr, hc.1, hc.2]
    rfl
  · intro hnc hyc
    unfold do_next_request
    simp only [hne2, Bool.false_eq_true, if_false]
    rw [hr]
    have hcond : ((clientAt st.clients (argminIdx cmpResv st.clients)).has_request &&
        Tg.le (clientAt st.clients
          (argminIdx cmpResv st.clients)).next_request.tag.reservation (Tg.fin now)) = false := by
      cases h1 : (clientAt st.clients (argminIdx cmpResv st.clients)).has_request with
      | false => rfl
      | true =>
        cases h2 : Tg.le (clientAt st.clients
            (argminIdx cmpResv st.clients)).next_request.tag.reservation (Tg.fin now) with
        | false => rfl
        | true => exact absurd ⟨h1, h2⟩ hnc
    rw [hcond]
    simp only [Bool.false_eq_true, if_false]
    rw [hy, hyc.1, hyc.2.1, hyc.2.2]
    rfl

/-- C1 witness scenario: one client with reservation 1 enqueues at time
0; at time 1 its reservation tag 1 is due, and do_next_request returns
returning(reservation). -/
def c1St : SchedState :=
  do_add_request { allow_limit_break := false, use_heap := false }
    (fun _ => ClientInfo.make 1 1 0) SchedState.init 1 4 0 0 0 0

/-- Witness for C1: the hypotheses hold at the concrete scenario and the
reservation branch fires. -/
theorem C1_witness :
    goodState { allow_limit_break := false, use_heap := false } c1St ∧ c1St.clients ≠ [] ∧
    (do_next_request { allow_limit_break := false, use_heap := false } c1St 1).1 =
      NextReq.returning HeapId.reservation := by
  refine ⟨by decide, by decide, ?_⟩
  exact (C1_dispatch_priority_order { allow_limit_break := false, use_heap := false }
    c1St 1 (by decide) (by decide)).1 (by decide)

/-! Support for the pull-path claims. -/

theorem lt_of_has_request (l : List ClientRec) (i : ℕ)
    (h : (clientAt l i).has_request = true) : i < l.length := by
  by_cases hlt : i < l.length
  · exact hlt
  · rw [clientAt_of_ge l i (le_of_not_lt hlt)] at h
    exact absurd h (by decide)

theorem forall₂_map_resv (now : ℚ) :
    ∀ {q q' : List ClientReq}, List.Forall₂ (reqPromoted now) q q' →
      q'.map (fun r => r.tag.reservation) = q.map (fun r => r.tag.reservation) := by
  intro q q' h
  induction h with
  | nil => rfl
  | cons hab hrest ih =>
    simp only [List.map_cons, ih]
    rw [hab.2.2.1]

theorem map_eq_of_getD {α β : Type} (f : α → β) (d : α) (l l' : List α)
    (hlen : l'.length = l.length)
    (h : ∀ i, f (l'.getD i d) = f (l.getD i d)) : l'.map f = l.map f := by
  apply List.ext_getElem
  · simp [hlen]
  · intro i h1 h2
    simp only [List.getElem_map]
    have hh := h i
    rw [List.getD_eq_getElem l' d (by simpa using h1),
      List.getD_eq_getElem l d (by simpa using h2)] at hh
    exact hh

theorem map_client_modifyAt (l : List ClientRec) (i : ℕ) (f : ClientRec → ClientRec)
    (h : ∀ c, (f c).client = c.client) :
    (modifyAt l i f).map ClientRec.client = l.map ClientRec.client := by
  apply map_eq_of_getD ClientRec.client defaultClientRec
  · exact modifyAt_length l i f
  · intro j
    rcases clientAt_modifyAt_cases l i j f with heq | ⟨_, _, heq⟩
    · rw [show (modifyAt l i f).getD j defaultClientRec = clientAt (modifyAt l i f) j from rfl,
        heq]
      rfl
    · rw [show (modifyAt l i f).getD j defaultClientRec = clientAt (modifyAt l i f) j from rfl,
        heq]
      exact h _

theorem promoteGo_map_client (cfg : Config) (now : ℚ) (fuel : ℕ) (st : SchedState) :
    (promoteGo cfg now fuel st).clients.map ClientRec.client =
      st.clients.map ClientRec.client := by
  apply map_eq_of_getD ClientRec.client defaultClientRec
  · exact promoteGo_length cfg now fuel st
  · intro i
    exact (promoteGo_promoted cfg now fuel st i).1

theorem promoteGo_resv (cfg : Config) (now : ℚ) (fuel : ℕ) :
    ∀ st : SchedState, (promoteGo cfg now fuel st).resv = st.resv := by
  induction fuel with
  | zero => intro st; rfl
  | succ n ih =>
    intro st
    rw [promoteGo]
    by_cases hg : promoteGuard cfg now st = true
    · rw [if_pos hg, ih, promoteStep_resv]
    · rw [if_neg hg]

theorem promoteGo_argmin_resv (cfg : Config) (now : ℚ) (fuel : ℕ) :
    ∀ st : SchedState,
      argminIdx cmpResv (promoteGo cfg now fuel st).clients =
        argminIdx cmpResv st.clients := by
  induction fuel with
  | zero => intro st; rfl
  | succ n ih =>
    intro st
    rw [promoteGo]
    by_cases hg : promoteGuard cfg now st = true
    · rw [if_pos hg, ih, promoteStep_clients, argmin_resv_setFrontReady]
    · rw [if_neg hg]

theorem topResvIdx_promoteGo (cfg : Config) (now : ℚ) (fuel : ℕ) (st : SchedState) :
    topResvIdx cfg (promoteGo cfg now fuel st) = topResvIdx cfg st := by
  unfold topResvIdx
  by_cases hu : cfg.use_heap = true
  · rw [if_pos hu, if_pos hu, promoteGo_argmin_resv]
  · rw [if_neg hu, if_neg hu, promoteGo_resv]

theorem popProcessIdx_clients (cfg : Config) (st : SchedState) (idx : ℕ) :
    (popProcessIdx cfg st idx).clients =
      modifyAt st.clients idx (fun c => { c with requests := c.requests.tail }) := by
  unfold popProcessIdx
  by_cases hu : cfg.use_heap = true <;>
    simp only [hu, Bool.false_eq_true, if_true, if_false, setCursors_clients]

theorem reduce_clients (cfg : Config) (st : SchedState) (cid : ℕ) (idx : ℕ)
    (h : findClientIdx cid st.clients = Option.some idx) :
    (reduce_reservation_tags cfg st cid).clients =
      modifyAt st.clients idx reduceResTagsRec := by
  unfold reduce_reservation_tags
  rw [h]
  by_cases hu : cfg.use_heap = true <;>
    simp only [hu, Bool.false_eq_true, if_true, if_false]

theorem do_next_request_snd (cfg : Config) (st : SchedState) (now : ℚ) :
    (do_next_request cfg st now).2 = st ∨
    (do_next_request cfg st now).2 = promoteLoop cfg now st := by
  unfold do_next_request
  dsimp only
  repeat' split
  all_goals first | exact Or.inl rfl | exact Or.inr rfl

theorem do_next_returning_ready (cfg : Config) (st : SchedState) (now : ℚ)
    (h : (do_next_request cfg st now).1 = NextReq.returning HeapId.ready) :
    (do_next_request cfg st now).2 = promoteLoop cfg now st ∧
    (clientAt (promoteLoop cfg now st).clients
      (topReadyIdx cfg (promoteLoop cfg now st))).has_request = true := by
  unfold do_next_request at h ⊢
  dsimp only at h ⊢
  split at h
  next hempty => simp at h
  next hempty =>
    split at h
    next hresv => simp at h
    next hresv =>
      split at h
      next hready =>
        refine ⟨by rw [if_neg hempty, if_neg hresv, if_pos hready], ?_⟩
        simp only [Bool.and_eq_true] at hready
        exact hready.1.1
      next hready =>
        split at h
        next hlb =>
          refine ⟨by rw [if_neg hempty, if_neg hresv, if_neg hready, if_pos hlb], ?_⟩
          simp only [Bool.and_eq_true] at hlb
          exact hlb.1.2
        next hlb =>
          split at h
          next hlbr => simp at h
          next hlbr =>
            repeat' split at h
            all_goals simp at h

theorem do_next_returning_resv (cfg : Config) (st : SchedState) (now : ℚ)
    (h : (do_next_request cfg st now).1 = NextReq.returning HeapId.reservation) :
    (clientAt (do_next_request cfg st now).2.clients
      (topResvIdx cfg (do_next_request cfg st now).2)).has_request = true := by
  unfold do_next_request at h ⊢
  dsimp only at h ⊢
  split at h
  next hempty => simp at h
  next hempty =>
    split at h
    next hresv =>
      rw [if_neg hempty, if_pos hresv]
      simp only [Bool.and_eq_true] at hresv
      exact hresv.1
    next hresv =>
      split at h
      next hready => simp at h
      next hready =>
        split at h
        next hlb => simp at h
        next hlb =>
          split at h
          next hlbr =>
            rw [if_neg hempty, if_neg hresv, if_neg hready, if_neg hlb, if_pos hlbr]
            simp only [Bool.and_eq_true] at hlbr
            have hh := hlbr.1.2
            rw [show topResvIdx cfg st =
                topResvIdx cfg (promoteLoop cfg now st) from
                (topResvIdx_promoteGo cfg now (countNonReady st.clients) st).symm] at hh
            exact hh
          next hlbr =>
            repeat' split at h
            all_goals simp at h

theorem map_tail_comm {α β : Type} (f : α → β) (l : List α) :
    l.tail.map f = (l.map f).tail := by
  cases l <;> rfl

/-- Lookup of a client record by id, as the map find models it. -/
def findClient (cid : ℕ) (l : List ClientRec) : Option ClientRec :=
  match findClientIdx cid l with
  | Option.some i => Option.some (clientAt l i)
  | Option.none => Option.none

/-- Mapping reservation tags commutes with the reduction map. -/
theorem map_resv_sub (inv : ℚ) (q : List ClientReq) :
    (q.map (fun r => { r with tag := { r.tag with
        reservation := r.tag.reservation.add (-inv) } })).map (fun r => r.tag.reservation) =
      (q.map (fun r => r.tag.reservation)).map (fun t => Tg.add t (-inv)) := by
  induction q with
  | nil => rfl
  | cons r rs ih => simp only [List.map_cons, ih]

theorem map_resv_sub2 (inv : ℚ) (q : List ClientReq) :
    q.map (fun r => Tg.add r.tag.reservation (-inv)) =
      (q.map (fun r => r.tag.reservation)).map (fun t => Tg.add t (-inv)) := by
  rw [List.map_map]
  rfl

/-- Shared facts about the client popped at an index of a state that is
pointwise promotion-related to the pre-pull state. -/
theorem popDispatchFacts (cfg : Config) (st stX : SchedState) (now : ℚ) (idx : ℕ)
    (hnodup : (st.clients.map ClientRec.client).Nodup)
    (hrel : ∀ i, recPromoted now (clientAt st.clients i) (clientAt stX.clients i))
    (hlen : stX.clients.length = st.clients.length)
    (hhas : (clientAt stX.clients idx).has_request = true) :
    findClientIdx (clientAt stX.clients idx).client st.clients = Option.some idx ∧
    (popProcessIdx cfg stX idx).clients.map ClientRec.client =
      st.clients.map ClientRec.client ∧
    clientAt (popProcessIdx cfg stX idx).clients idx =
      { (clientAt stX.clients idx) with
        requests := (clientAt stX.clients idx).requests.tail } ∧
    (clientAt stX.clients idx).requests.tail.map (fun r => r.tag.reservation) =
      (clientAt st.clients idx).requests.tail.map (fun r => r.tag.reservation) ∧
    (clientAt stX.clients idx).prev_tag = (clientAt st.clients idx).prev_tag ∧
    (clientAt stX.clients idx).info = (clientAt st.clients idx).info ∧
    idx < (popProcessIdx cfg stX idx).clients.length := by
  have hidx : idx < stX.clients.length := lt_of_has_request _ _ hhas
  have hidx0 : idx < st.clients.length := by rw [← hlen]; exact hidx
  have hmapX : stX.clients.map ClientRec.client = st.clients.map ClientRec.client := by
    apply map_eq_of_getD ClientRec.client defaultClientRec
    · exact hlen
    · intro i
      exact (hrel i).1
  have hid : (clientAt stX.clients idx).client = (clientAt st.clients idx).client :=
    (hrel idx).1
  have htailpres : ∀ c0 : ClientRec,
      (({ c0 with requests := c0.requests.tail } : ClientRec)).client = c0.client :=
    fun c0 => rfl
  refine ⟨?_, ?_, ?_, ?_, (hrel idx).2.1, (hrel idx).2.2.2.1, ?_⟩
  · exact findClientIdx_of_nodup _ st.clients idx hnodup hidx0 hid.symm
  · rw [popProcessIdx_clients, map_client_modifyAt _ _ _ htailpres, hmapX]
  · rw [popProcessIdx_clients, clientAt_modifyAt_self _ _ _ hidx]
  · rw [map_tail_comm, map_tail_comm, forall₂_map_resv now (hrel idx).2.2.2.2.2.2]
  · rw [popProcessIdx_clients, modifyAt_length]
    exact hidx

/-- C4: for every client and every pull_request that returns a request
via the ready view (phase priority), afterwards the reservation tag of
every request still queued for that client and the client's
prev_tag.reservation are each exactly reservation_inv less than before,
and no such subtraction happens on a dispatch via the reservation
view. -/
theorem C4_reservation_reduction (cfg : Config) (st : SchedState) (now : ℚ)
    (hnodup : (st.clients.map ClientRec.client).Nodup)
    (out : Retn) (st' : SchedState)
    (hpull : pull_request cfg st now = (PullReq.retn out, st'))
    (c c' : ClientRec)
    (hc : findClient out.client st.clients = Option.some c)
    (hc' : findClient out.client st'.clients = Option.some c') :
    (out.phase = PhaseType.priority →
      c'.requests.map (fun r => r.tag.reservation) =
        c.requests.tail.map (fun r => Tg.add r.tag.reservation (-c.info.reservation_inv)) ∧
      c'.prev_tag.reservation = Tg.add c.prev_tag.reservation (-c.info.reservation_inv)) ∧
    (out.phase = PhaseType.reservation →
      c'.requests.map (fun r => r.tag.reservation) =
        c.requests.tail.map (fun r => r.tag.reservation) ∧
      c'.prev_tag.reservation = c.prev_tag.reservation) := by
  unfold pull_request at hpull
  dsimp only at hpull
  cases hnext : (do_next_request cfg st now).1 with
  | none =>
    rw [hnext] at hpull
    simp at hpull
  | future t =>
    rw [hnext] at hpull
    simp at hpull
  | returning hid =>
    rw [hnext] at hpull
    cases hid with
    | ready =>
      obtain ⟨hsnd, hhas⟩ := do_next_returning_ready cfg st now hnext
      rw [hsnd] at hpull
      dsimp only at hpull
      rw [if_neg (by decide : ¬ (HeapId.ready = HeapId.reservation))] at hpull
      rw [Prod.mk.injEq] at hpull
      obtain ⟨houtp, hst'⟩ := hpull
      simp only [PullReq.retn.injEq] at houtp
      have hrel : ∀ i, recPromoted now (clientAt st.clients i)
          (clientAt (promoteLoop cfg now st).clients i) := by
        intro i
        exact promoteGo_promoted cfg now (countNonReady st.clients) st i
      have hlen : (promoteLoop cfg now st).clients.length = st.clients.length :=
        promoteGo_length cfg now (countNonReady st.clients) st
      obtain ⟨hfidx, hmap2, hat2, htails, hprev, hinfo, hlt2⟩ :=
        popDispatchFacts cfg st (promoteLoop cfg now st) now
          (topReadyIdx cfg (promoteLoop cfg now st)) hnodup hrel hlen hhas
      set L := promoteLoop cfg now st with hL
      set idx := topReadyIdx cfg L with hidxdef
      set tp := clientAt L.clients idx with htp
      set st2 := popProcessIdx cfg L idx with hst2
      have houtc : out.client = tp.client := by rw [← houtp]
      have houtph : out.phase = PhaseType.priority := by rw [← houtp]
      have hcidx : findClientIdx out.client st.clients = Option.some idx := by
        rw [houtc]
        exact hfidx
      have hceq : c = clientAt st.clients idx := by
        unfold findClient at hc
        rw [hcidx] at hc
        exact (Option.some.injEq _ _ ▸ hc).symm
      have hnodup2 : (st2.clients.map ClientRec.client).Nodup := by
        rw [hmap2]
        exact hnodup
      have hat2id : (clientAt st2.clients idx).client = tp.client := by
        rw [hat2]
      have hf2 : findClientIdx tp.client st2.clients = Option.some idx :=
        findClientIdx_of_nodup _ st2.clients idx hnodup2 hlt2 hat2id
      have hst'c : st'.clients = modifyAt st2.clients idx reduceResTagsRec := by
        rw [← hst']
        exact reduce_clients cfg st2 tp.client idx hf2
      have hlt' : idx < st'.clients.length := by
        rw [hst'c, modifyAt_length]
        exact hlt2
      have hat' : clientAt st'.clients idx = reduceResTagsRec (clientAt st2.clients idx) := by
        rw [hst'c, clientAt_modifyAt_self _ _ _ hlt2]
      have hmap' : st'.clients.map ClientRec.client = st.clients.map ClientRec.client := by
        rw [hst'c, map_client_modifyAt _ _ _ (fun c0 => (reduceResTagsRec_fields c0).2.2.2.2.2),
          hmap2]
      have hat'id : (clientAt st'.clients idx).client = out.client := by
        rw [hat', (reduceResTagsRec_fields _).2.2.2.2.2, hat2id, houtc]
      have hnodup' : (st'.clients.map ClientRec.client).Nodup := by
        rw [hmap']
        exact hnodup
      have hc'eq : c' = clientAt st'.clients idx := by
        unfold findClient at hc'
        rw [findClientIdx_of_nodup _ st'.clients idx hnodup' hlt' hat'id] at hc'
        exact (Option.some.injEq _ _ ▸ hc').symm
      constructor
      · intro _
        rw [hc'eq, hat', hat2, hceq]
        unfold reduceResTagsRec
        dsimp only
        constructor
        · rw [map_resv_sub, map_resv_sub2, htails, hinfo]
        · rw [hprev, hinfo]
      · intro hph
        rw [houtph] at hph
        simp at hph
    | reservation =>
      have hhas := do_next_returning_resv cfg st now hnext
      dsimp only at hpull
      rw [if_pos rfl] at hpull
      rw [Prod.mk.injEq] at hpull
      obtain ⟨houtp, hst'⟩ := hpull
      simp only [PullReq.retn.injEq] at houtp
      have hrel : ∀ i, recPromoted now (clientAt st.clients i)
          (clientAt (do_next_request cfg st now).2.clients i) := by
        intro i
        rcases do_next_request_snd cfg st now with hs | hs
        · rw [hs]
          exact recPromoted_refl now _
        · rw [hs]
          exact promoteGo_promoted cfg now (countNonReady st.clients) st i
      have hlen : (do_next_request cfg st now).2.clients.length = st.clients.length := by
        rcases do_next_request_snd cfg st now with hs | hs
        · rw [hs]
        · rw [hs]
          exact promoteGo_length cfg now (countNonReady st.clients) st
      obtain ⟨hfidx, hmap2, hat2, htails, hprev, hinfo, hlt2⟩ :=
        popDispatchFacts cfg st (do_next_request cfg st now).2 now
          (topResvIdx cfg (do_next_request cfg st now).2) hnodup hrel hlen hhas
      set L := (do_next_request cfg st now).2 with hL
      set idx := topResvIdx cfg L with hidxdef
      set tp := clientAt L.clients idx with htp
      set st2 := popProcessIdx cfg L idx with hst2
      have houtc : out.client = tp.client := by rw [← houtp]
      have houtph : out.phase = PhaseType.reservation := by rw [← houtp]
      have hcidx : findClientIdx out.client st.clients = Option.some idx := by
        rw [houtc]
        exact hfidx
      have hceq : c = clientAt st.clients idx := by
        unfold findClient at hc
        rw [hcidx] at hc
        exact (Option.some.injEq _ _ ▸ hc).symm
      have hst'c : st'.clients = st2.clients := by rw [← hst']
      have hnodup2 : (st'.clients.map ClientRec.client).Nodup := by
        rw [hst'c, hmap2]
        exact hnodup
      have hlt' : idx < st'.clients.length := by
        rw [hst'c]
        exact hlt2
      have hat' : clientAt st'.clients idx =
          { tp with requests := tp.requests.tail } := by
        rw [hst'c]
        exact hat2
      have hat'id : (clientAt st'.clients idx).client = out.client := by
        rw [hat', houtc]
      have hc'eq : c' = clientAt st'.clients idx := by
        unfold findClient at hc'
        rw [findClientIdx_of_nodup _ st'.clients idx hnodup2 hlt' hat'id] at hc'
        exact (Option.some.injEq _ _ ▸ hc').symm
      constructor
      · intro hph
        rw [houtph] at hph
        simp at hph
      · intro _
        rw [hc'eq, hat', hceq]
        dsimp only
        constructor
        · rw [map_tail_comm, map_tail_comm] at htails
          rw [map_tail_comm, htails, map_tail_comm]
        · exact hprev ▸ rfl


/-- C4 witness scenario: one client (id 9, reservation 1, weight 1, no
limit) with two requests queued at time 0; the pull at time 0 dispatches
via the ready view (phase priority) because the reservation tag 1 is not
yet due while the limit tag is TagMin. -/
def c4Cfg : Config := { allow_limit_break := false, use_heap := true }

def c4St : SchedState :=
  do_add_request c4Cfg (fun _ => ClientInfo.make 1 1 0)
    (do_add_request c4Cfg (fun _ => ClientInfo.make 1 1 0) SchedState.init 1 9 0 0 0 0)
    2 9 0 0 0 0

def c4StAfter : SchedState := (pull_request c4Cfg c4St 0).2

def c4Ret : Retn := { client := 9, request := 1, phase := PhaseType.priority }

def c4Before : ClientRec := (findClient 9 c4St.clients).getD defaultClientRec

def c4After : ClientRec := (findClient 9 c4StAfter.clients).getD defaultClientRec

/-- Witness for C4: at the concrete scenario the remaining request's
reservation tag drops from 2 to 1 (by reservation_inv = 1), as does
prev_tag.reservation. -/
theorem C4_witness :
    (c4St.clients.map ClientRec.client).Nodup ∧
    c4After.requests.map (fun r => r.tag.reservation) =
      c4Before.requests.tail.map
        (fun r => Tg.add r.tag.reservation (-c4Before.info.reservation_inv)) ∧
    c4After.prev_tag.reservation =
      Tg.add c4Before.prev_tag.reservation (-c4Before.info.reservation_inv) ∧
    c4After.requests.map (fun r => r.tag.reservation) = [Tg.fin 1] := by
  have hmain := C4_reservation_reduction c4Cfg c4St 0 (by decide) c4Ret c4StAfter
    (Prod.ext_iff.mpr ⟨by decide, rfl⟩) c4Before c4After (by decide) (by decide)
  refine ⟨by decide, ?_, ?_, by decide⟩
  · exact (hmain.1 (by decide)).1
  · exact (hmain.1 (by decide)).2

/-! Claim C7: monotonicity of the ready flag. -/

/-- Relation between a queued request and its image under one scheduler
operation: same payload, same limit tag, the ready flag only rises, and
a rise implies the scheduler observed the limit tag at most now. -/
def readyStep (now : ℚ) (a b : ClientReq) : Prop :=
  b.request = a.request ∧ b.tag.limit = a.tag.limit ∧
  (a.tag.ready = true → b.tag.ready = true) ∧
  (a.tag.ready = false → b.tag.ready = true → Tg.le a.tag.limit (Tg.fin now) = true)

theorem readyStep_refl (now : ℚ) (a : ClientReq) : readyStep now a a := by
  refine ⟨rfl, rfl, fun h => h, fun h1 h2 => ?_⟩
  rw [h1] at h2
  exact absurd h2 (by simp)

theorem readyStep_trans (now : ℚ) {a b c : ClientReq}
    (h1 : readyStep now a b) (h2 : readyStep now b c) : readyStep now a c := by
  obtain ⟨r1, l1, m1, f1⟩ := h1
  obtain ⟨r2, l2, m2, f2⟩ := h2
  refine ⟨r2.trans r1, l2.trans l1, fun h => m2 (m1 h), fun ha hc => ?_⟩
  cases hb : b.tag.ready with
  | true => exact f1 ha hb
  | false =>
    have := f2 hb hc
    rw [l1] at this
    exact this

theorem reqPromoted_readyStep (now : ℚ) {a b : ClientReq}
    (h : reqPromoted now a b) : readyStep now a b :=
  ⟨h.1, h.2.2.2.2.1, h.2.2.2.2.2.1, h.2.2.2.2.2.2⟩

theorem forall₂_readyStep_refl (now : ℚ) (q : List ClientReq) :
    List.Forall₂ (readyStep now) q q :=
  forall₂_refl_of (readyStep_refl now) q

theorem forall₂_readyStep_trans {now : ℚ} {q1 q2 q3 : List ClientReq}
    (h1 : List.Forall₂ (readyStep now) q1 q2) (h2 : List.Forall₂ (readyStep now) q2 q3) :
    List.Forall₂ (readyStep now) q1 q3 :=
  @forall₂_trans_of ClientReq (readyStep now)
    (fun _ _ _ hab hbc => readyStep_trans now hab hbc) _ _ _ h1 h2

theorem forall₂_map_right {now : ℚ} (f : ClientReq → ClientReq)
    (hf : ∀ r, readyStep now r (f r)) :
    ∀ q : List ClientReq, List.Forall₂ (readyStep now) q (q.map f) := by
  intro q
  induction q with
  | nil => exact List.Forall₂.nil
  | cons r rs ih => exact List.Forall₂.cons (hf r) ih

theorem reduce_forall₂ (now : ℚ) (cfg : Config) (st : SchedState) (cid : ℕ) (i : ℕ) :
    List.Forall₂ (readyStep now) (clientAt st.clients i).requests
      (clientAt (reduce_reservation_tags cfg st cid).clients i).requests := by
  have hcl : (reduce_reservation_tags cfg st cid).clients = st.clients ∨
      ∃ j, (reduce_reservation_tags cfg st cid).clients =
        modifyAt st.clients j reduceResTagsRec := by
    unfold reduce_reservation_tags
    cases findClientIdx cid st.clients with
    | none => exact Or.inl rfl
    | some j =>
      right
      refine ⟨j, ?_⟩
      by_cases hu : cfg.use_heap = true <;>
        simp only [hu, Bool.false_eq_true, if_true, if_false]
  rcases hcl with hcl | ⟨j, hcl⟩
  · rw [hcl]
    exact forall₂_readyStep_refl now _
  · rw [hcl]
    rcases clientAt_modifyAt_cases st.clients j i reduceResTagsRec with heq | ⟨_, _, heq⟩
    · rw [heq]
      exact forall₂_readyStep_refl now _
    · rw [heq]
      unfold reduceResTagsRec
      dsimp only
      exact forall₂_map_right
        (fun r => { r with tag := { r.tag with
          reservation := r.tag.reservation.add
            (-(clientAt st.clients i).info.reservation_inv) } })
        (fun r => ⟨rfl, rfl, fun h => h,
          fun h1 h2 => absurd (h1.symm.trans h2) (by decide)⟩) _

theorem pop_drop (cfg : Config) (stX : SchedState) (idx : ℕ) (i : ℕ) :
    ∃ d : ℕ, d ≤ 1 ∧
      (clientAt (popProcessIdx cfg stX idx).clients i).requests =
        ((clientAt stX.clients i).requests).drop d := by
  rw [popProcessIdx_clients]
  rcases clientAt_modifyAt_cases stX.clients idx i
      (fun c => { c with requests := c.requests.tail }) with heq | ⟨_, _, heq⟩
  · exact ⟨0, by omega, by rw [heq, List.drop_zero]⟩
  · refine ⟨1, le_refl 1, ?_⟩
    rw [heq, ← List.drop_one]

theorem forall₂_drop {α : Type} {r : α → α → Prop} (d : ℕ) :
    ∀ {l l' : List α}, List.Forall₂ r l l' →
      List.Forall₂ r (l.drop d) (l'.drop d) := by
  induction d with
  | zero => intro l l' h; exact h
  | succ n ih =>
    intro l l' h
    cases h with
    | nil => exact List.Forall₂.nil
    | cons hab hrest =>
      rw [List.drop_succ_cons, List.drop_succ_cons]
      exact ih hrest

theorem pull_request_snd (cfg : Config) (st : SchedState) (now : ℚ) :
    (pull_request cfg st now).2 = (do_next_request cfg st now).2 ∨
    (∃ idx, (pull_request cfg st now).2 =
      popProcessIdx cfg (do_next_request cfg st now).2 idx) ∨
    (∃ idx cid, (pull_request cfg st now).2 =
      reduce_reservation_tags cfg
        (popProcessIdx cfg (do_next_request cfg st now).2 idx) cid) := by
  unfold pull_request
  dsimp only
  split
  · exact Or.inl rfl
  · exact Or.inl rfl
  · split
    · exact Or.inr (Or.inl ⟨_, rfl⟩)
    · exact Or.inr (Or.inr ⟨_, _, rfl⟩)

/-- C7: across pull_request and add_request, a queued request's ready
flag changes from false to true at most once, only at a
do_next_request(now) observing its limit tag at most now, and once true
it never becomes false while the request remains queued; add_request
appends its request with ready false and touches no other flag. -/
theorem C7_ready_monotone (cfg : Config) (info_f : ℕ → ClientInfo) (st : SchedState) :
    (∀ now : ℚ, ∀ i : ℕ, ∃ d : ℕ, d ≤ 1 ∧
      List.Forall₂ (readyStep now)
        (((clientAt st.clients i).requests).drop d)
        ((clientAt (pull_request cfg st now).2.clients i).requests)) ∧
    (∀ request client_id rho delta : ℕ, ∀ time cost : ℚ, ∀ i : ℕ,
      ∃ app : List ClientReq,
        (clientAt (do_add_request cfg info_f st request client_id rho delta time cost).clients
          i).requests = (clientAt st.clients i).requests ++ app ∧
        ∀ rq ∈ app, rq.tag.ready = false) := by
  constructor
  · intro now i
    have hpromo : ∀ k : ℕ, List.Forall₂ (readyStep now)
        (clientAt st.clients k).requests
        (clientAt (promoteLoop cfg now st).clients k).requests := by
      intro k
      exact ((promoteGo_promoted cfg now (countNonReady st.clients) st k).2.2.2.2.2.2).imp
        (fun _ _ h => reqPromoted_readyStep now h)
    have hX : ∀ k : ℕ, List.Forall₂ (readyStep now) (clientAt st.clients k).requests
        (clientAt (do_next_request cfg st now).2.clients k).requests := by
      intro k
      rcases do_next_request_snd cfg st now with hs | hs <;> rw [hs]
      · exact forall₂_readyStep_refl now _
      · exact hpromo k
    rcases pull_request_snd cfg st now with hs | ⟨idx, hs⟩ | ⟨idx, cid, hs⟩
    · refine ⟨0, by omega, ?_⟩
      rw [hs, List.drop_zero]
      exact hX i
    · obtain ⟨d, hd1, hd2⟩ := pop_drop cfg (do_next_request cfg st now).2 idx i
      refine ⟨d, hd1, ?_⟩
      rw [hs, hd2]
      exact forall₂_drop d (hX i)
    · obtain ⟨d, hd1, hd2⟩ := pop_drop cfg (do_next_request cfg st now).2 idx i
      refine ⟨d, hd1, ?_⟩
      rw [hs]
      have h1 : List.Forall₂ (readyStep now)
          (((clientAt st.clients i).requests).drop d)
          ((clientAt (popProcessIdx cfg (do_next_request cfg st now).2 idx).clients
            i).requests) := by
        rw [hd2]
        exact forall₂_drop d (hX i)
      exact forall₂_readyStep_trans h1 (reduce_forall₂ now cfg _ cid i)
  · intro request client_id rho delta time cost i
    cases hens : ensureClient cfg info_f { st with tick := st.tick + 1 } client_id
        (st.tick + 1) with
    | mk st1 ci =>
      have hresult :
          (do_add_request cfg info_f st request client_id rho delta time cost).clients =
            modifyAt st1.clients ci (fun c =>
              let c1 := idleAdjustRec st1.clients time c
              let tag := RequestTag.make c1.prev_tag c1.info rho delta time cost
              { c1 with
                requests := c1.requests ++
                  [{ tag := tag, client_id := client_id, request := request }]
              , prev_tag := tag
              , last_tick := st.tick + 1 }) := by
        unfold do_add_request
        dsimp only
        rw [hens]
        dsimp only
        by_cases hu : cfg.use_heap = true <;>
          simp only [hu, Bool.false_eq_true, if_true, if_false, setCursors_clients]
      have hbase : ∀ k, (clientAt st1.clients k).requests = (clientAt st.clients k).requests := by
        intro k
        unfold ensureClient at hens
        cases hfind : findClientIdx client_id
            ({ st with tick := st.tick + 1 } : SchedState).clients with
        | some j =>
          rw [hfind] at hens
          dsimp only at hens
          have h1 : st1 = { st with tick := st.tick + 1 } :=
            (Prod.mk.injEq _ _ _ _ ▸ hens).1.symm
          rw [h1]
        | none =>
          rw [hfind] at hens
          dsimp only at hens
          have h1 : st1.clients = st.clients ++
              [ClientRec.create client_id (info_f client_id) (st.tick + 1)] := by
            have hfst := (Prod.mk.injEq _ _ _ _ ▸ hens).1.symm
            by_cases hu : cfg.use_heap = true <;>
              rw [hfst] <;> simp only [hu, Bool.false_eq_true, if_true, if_false]
          rw [h1]
          by_cases hk : k < st.clients.length
          · unfold clientAt
            rw [List.getD_append _ _ _ _ hk]
          · by_cases hk2 : k = st.clients.length
            · rw [hk2, clientAt_append_self, clientAt_of_ge st.clients _ (le_refl _)]
              rfl
            · have hge : st.clients.length + 1 ≤ k := by omega
              rw [clientAt_of_ge _ _ (by simpa using hge), clientAt_of_ge st.clients _ (by omega)]
      rw [hresult]
      rcases clientAt_modifyAt_cases st1.clients ci i _ with heq | ⟨_, _, heq⟩
      · rw [heq, hbase i]
        exact ⟨[], by rw [List.append_nil], by intro rq h; cases h⟩
      · rw [heq]
        refine ⟨[{
            tag := (RequestTag.make (idleAdjustRec st1.clients time
              (clientAt st1.clients i)).prev_tag
              (idleAdjustRec st1.clients time (clientAt st1.clients i)).info
              rho delta time cost)
          , client_id := client_id
          , request := request }], ?_, ?_⟩
        · dsimp only
          have hreq : (idleAdjustRec st1.clients time (clientAt st1.clients i)).requests =
              (clientAt st1.clients i).requests := by
            unfold idleAdjustRec
            by_cases hi : (clientAt st1.clients i).idle = true
            · rw [if_pos hi]
              cases lowestPropTag st1.clients <;> rfl
            · rw [if_neg hi]
          rw [hreq, hbase i]
        · intro rq h
          cases h with
          | head => rfl
          | tail _ h2 => cases h2

/-! Claim C3: the heap and the indexed vector drive the scheduler to the
same decisions.  The bisimulation relation ties a heap-configured state
to a vector-configured state with the same client data and tick whose
cursors are fresh. -/

/-- The heap/vector bisimulation: equal client lists, equal ticks, and
fresh cursors on the vector side. -/
def pairRel (sh sv : SchedState) : Prop :=
  sh.clients = sv.clients ∧ sh.tick = sv.tick ∧ cursorsFresh sv

theorem init_fresh : cursorsFresh SchedState.init :=
  ⟨rfl, rfl, rfl⟩

theorem setCursors_tick (x : SchedState) : (setCursors x).tick = x.tick := rfl

theorem setCursors_fresh (x : SchedState) : cursorsFresh (setCursors x) := by
  unfold cursorsFresh setCursors
  dsimp only
  rw [IIVadjust_eq]
  exact ⟨rfl, rfl, rfl⟩

theorem topResv_pair (b : Bool) {sh sv : SchedState} (h : pairRel sh sv) :
    topResvIdx ⟨b, true⟩ sh = topResvIdx ⟨b, false⟩ sv := by
  rw [topResvIdx_good ⟨b, true⟩ sh (fun hf => Bool.noConfusion hf),
    topResvIdx_good ⟨b, false⟩ sv (fun _ => h.2.2), h.1]

theorem topReady_pair (b : Bool) {sh sv : SchedState} (h : pairRel sh sv) :
    topReadyIdx ⟨b, true⟩ sh = topReadyIdx ⟨b, false⟩ sv := by
  rw [topReadyIdx_good ⟨b, true⟩ sh (fun hf => Bool.noConfusion hf),
    topReadyIdx_good ⟨b, false⟩ sv (fun _ => h.2.2), h.1]

theorem topLimit_pair (b : Bool) {sh sv : SchedState} (h : pairRel sh sv) :
    topLimitIdx ⟨b, true⟩ sh = topLimitIdx ⟨b, false⟩ sv := by
  rw [topLimitIdx_good ⟨b, true⟩ sh (fun hf => Bool.noConfusion hf),
    topLimitIdx_good ⟨b, false⟩ sv (fun _ => h.2.2), h.1]

theorem promoteGuard_pair (b : Bool) (now : ℚ) {sh sv : SchedState} (h : pairRel sh sv) :
    promoteGuard ⟨b, true⟩ now sh = promoteGuard ⟨b, false⟩ now sv := by
  unfold promoteGuard
  rw [h.1, topLimit_pair b h]

theorem promoteStep_pair (b : Bool) {sh sv : SchedState} (h : pairRel sh sv) :
    pairRel (promoteStep ⟨b, true⟩ sh) (promoteStep ⟨b, false⟩ sv) := by
  refine ⟨?_, ?_, ?_⟩
  · rw [promoteStep_clients, promoteStep_clients, h.1, topLimit_pair b h]
  · rw [promoteStep_tick, promoteStep_tick]
    exact h.2.1
  · exact promoteStep_fresh ⟨b, false⟩ sv rfl h.2.2

theorem promoteGo_pair (b : Bool) (now : ℚ) (fuel : ℕ) :
    ∀ sh sv : SchedState, pairRel sh sv →
      pairRel (promoteGo ⟨b, true⟩ now fuel sh) (promoteGo ⟨b, false⟩ now fuel sv) := by
  induction fuel with
  | zero => intro sh sv h; exact h
  | succ n ih =>
    intro sh sv h
    rw [promoteGo, promoteGo, promoteGuard_pair b now h]
    by_cases hg : promoteGuard ⟨b, false⟩ now sv = true
    · rw [if_pos hg, if_pos hg]
      exact ih _ _ (promoteStep_pair b h)
    · rw [if_neg hg, if_neg hg]
      exact h

theorem promoteLoop_pair (b : Bool) (now : ℚ) {sh sv : SchedState} (h : pairRel sh sv) :
    pairRel (promoteLoop ⟨b, true⟩ now sh) (promoteLoop ⟨b, false⟩ now sv) := by
  unfold promoteLoop
  rw [show countNonReady sh.clients = countNonReady sv.clients from by rw [h.1]]
  exact promoteGo_pair b now (countNonReady sv.clients) sh sv h

theorem pop_pair (b : Bool) (idx : ℕ) {sh sv : SchedState} (h : pairRel sh sv) :
    pairRel (popProcessIdx ⟨b, true⟩ sh idx) (popProcessIdx ⟨b, false⟩ sv idx) := by
  unfold popProcessIdx
  dsimp only
  simp only [Bool.false_eq_true, if_true, if_false]
  refine ⟨?_, ?_, setCursors_fresh _⟩
  · simp only [setCursors_clients, h.1]
  · rw [setCursors_tick]
    exact h.2.1

theorem reduce_pair (b : Bool) (cid : ℕ) {sh sv : SchedState} (h : pairRel sh sv) :
    pairRel (reduce_reservation_tags ⟨b, true⟩ sh cid)
      (reduce_reservation_tags ⟨b, false⟩ sv cid) := by
  unfold reduce_reservation_tags
  simp only [h.1]
  cases hf : findClientIdx cid sv.clients with
  | none =>
    dsimp only
    exact h
  | some i =>
    dsimp only
    simp only [Bool.false_eq_true, if_true, if_false]
    refine ⟨rfl, h.2.1, ?_, ?_, ?_⟩
    · exact IIVadjust_resv_eq _
    · show sv.ready = argminIdx cmpReady (modifyAt sv.clients i reduceResTagsRec)
      rw [argmin_ready_modReduce]
      exact h.2.2.2.1
    · show sv.limit = argminIdx cmpLimit (modifyAt sv.clients i reduceResTagsRec)
      rw [argmin_limit_modReduce]
      exact h.2.2.2.2

/-- Congruence for an if-then-else of do_next_request results whose two
sides share the branch condition. -/
theorem ite_nr_pair (c : Prop) [Decidable c] (x y x2 y2 : NextReq × SchedState)
    (h1 : x.1 = x2.1 ∧ pairRel x.2 x2.2) (h2 : y.1 = y2.1 ∧ pairRel y.2 y2.2) :
    (if c then x else y).1 = (if c then x2 else y2).1 ∧
    pairRel (if c then x else y).2 (if c then x2 else y2).2 := by
  by_cases hc : c
  · rw [if_pos hc, if_pos hc]
    exact h1
  · rw [if_neg hc, if_neg hc]
    exact h2

theorem dnr_pair (b : Bool) (now : ℚ) {sh sv : SchedState} (h : pairRel sh sv) :
    (do_next_request ⟨b, true⟩ sh now).1 = (do_next_request ⟨b, false⟩ sv now).1 ∧
    pairRel (do_next_request ⟨b, true⟩ sh now).2 (do_next_request ⟨b, false⟩ sv now).2 := by
  have hp : pairRel (promoteLoop ⟨b, true⟩ now sh) (promoteLoop ⟨b, false⟩ now sv) :=
    promoteLoop_pair b now h
  unfold do_next_request
  dsimp only
  simp only [h.1, topResv_pair b h, hp.1, topReady_pair b hp, topResv_pair b hp,
    topLimit_pair b hp]
  exact ite_nr_pair _ _ _ _ _ ⟨rfl, h⟩
    (ite_nr_pair _ _ _ _ _ ⟨rfl, h⟩
      (ite_nr_pair _ _ _ _ _ ⟨rfl, hp⟩
        (ite_nr_pair _ _ _ _ _ ⟨rfl, hp⟩
          (ite_nr_pair _ _ _ _ _ ⟨rfl, hp⟩
            (ite_nr_pair _ _ _ _ _ ⟨rfl, hp⟩ ⟨rfl, hp⟩)))))

theorem pull_pair (b : Bool) (now : ℚ) {sh sv : SchedState} (h : pairRel sh sv) :
    (pull_request ⟨b, true⟩ sh now).1 = (pull_request ⟨b, false⟩ sv now).1 ∧
    pairRel (pull_request ⟨b, true⟩ sh now).2 (pull_request ⟨b, false⟩ sv now).2 := by
  obtain ⟨hfst, hsnd⟩ := dnr_pair b now h
  unfold pull_request
  dsimp only
  rw [hfst]
  cases hnext : (do_next_request ⟨b, false⟩ sv now).1 with
  | none =>
    dsimp only
    exact ⟨rfl, hsnd⟩
  | future t =>
    dsimp only
    exact ⟨rfl, hsnd⟩
  | returning hid =>
    dsimp only
    cases hid with
    | reservation =>
      rw [if_pos rfl, if_pos rfl]
      dsimp only
      constructor
      · simp only [hsnd.1, topResv_pair b hsnd]
      · simp only [hsnd.1, topResv_pair b hsnd]
        exact pop_pair b _ hsnd
    | ready =>
      rw [if_neg (fun hco => HeapId.noConfusion hco), if_neg (fun hco => HeapId.noConfusion hco)]
      dsimp only
      constructor
      · simp only [hsnd.1, topReady_pair b hsnd]
      · simp only [hsnd.1, topReady_pair b hsnd]
        exact reduce_pair b _ (pop_pair b _ hsnd)

theorem ensure_pair (b : Bool) (info_f : ℕ → ClientInfo) (cid t : ℕ)
    (sh sv : SchedState) (hcl : sh.clients = sv.clients) (htick : sh.tick = sv.tick) :
    (ensureClient ⟨b, true⟩ info_f sh cid t).1.clients =
      (ensureClient ⟨b, false⟩ info_f sv cid t).1.clients ∧
    (ensureClient ⟨b, true⟩ info_f sh cid t).1.tick =
      (ensureClient ⟨b, false⟩ info_f sv cid t).1.tick ∧
    (ensureClient ⟨b, true⟩ info_f sh cid t).2 =
      (ensureClient ⟨b, false⟩ info_f sv cid t).2 := by
  unfold ensureClient
  simp only [hcl]
  cases hf : findClientIdx cid sv.clients with
  | some i =>
    dsimp only
    exact ⟨hcl, htick, rfl⟩
  | none =>
    dsimp only
    simp only [Bool.false_eq_true, if_true, if_false]
    exact ⟨trivial, htick, trivial⟩

theorem add_pair (b : Bool) (info_f : ℕ → ClientInfo)
    (request client_id rho delta : ℕ) (time cost : ℚ) {sh sv : SchedState}
    (h : pairRel sh sv) :
    pairRel (do_add_request ⟨b, true⟩ info_f sh request client_id rho delta time cost)
      (do_add_request ⟨b, false⟩ info_f sv request client_id rho delta time cost) := by
  unfold do_add_request
  dsimp only
  simp only [h.2.1]
  have he := ensure_pair b info_f client_id (sv.tick + 1)
    { sh with tick := sv.tick + 1 } { sv with tick := sv.tick + 1 } h.1 rfl
  simp only [Bool.false_eq_true, if_true, if_false]
  refine ⟨?_, ?_, setCursors_fresh _⟩
  · simp only [setCursors_clients, he.1, he.2.2]
  · rw [setCursors_tick]
    exact he.2.1

theorem runFrom_pair (b : Bool) (info_f : ℕ → ClientInfo) :
    ∀ (ops : List Op) (sh sv : SchedState), pairRel sh sv →
      runFrom ⟨b, true⟩ info_f sh ops = runFrom ⟨b, false⟩ info_f sv ops := by
  intro ops
  induction ops with
  | nil => intro sh sv h; rfl
  | cons op rest ih =>
    intro sh sv h
    cases op with
    | add request client rho delta time cost =>
      unfold runFrom runOp
      dsimp only
      exact ih _ _ (add_pair b info_f request client rho delta time cost h)
    | pull now =>
      unfold runFrom runOp
      dsimp only
      obtain ⟨ho, hs⟩ := pull_pair b now h
      rw [ho, ih _ _ hs]

/-- C3: for every fixed sequence of add_request and pull_request
operations, the list of pull outputs produced with use_heap = true
equals the list produced with use_heap = false; each run is the value of
the function runSeq on the input sequence, so the outputs are a
deterministic function of that sequence. -/
theorem C3_heap_vector_determinism (b : Bool) (info_f : ℕ → ClientInfo) (ops : List Op) :
    runSeq { allow_limit_break := b, use_heap := true } info_f ops =
      runSeq { allow_limit_break := b, use_heap := false } info_f ops := by
  unfold runSeq
  exact runFrom_pair b info_f ops SchedState.init SchedState.init ⟨rfl, rfl, init_fresh⟩

end Dmclock
